import Mathlib

/-!
Verification development for the naglib repository.

This file gives a shallow embedding, in Lean 4, of the parts of the
repository that the frozen claims are about:

* naglib/core/symbols.py   (Symbol: name validation, ordering)
* naglib/core/numbers.py   (Numeric tower: Integer, Rational, Float)
* naglib/algebra/polynomial.py (Monomial, Term, Polynomial: total_degree)
* core/algebra.py          (PolynomialSystem, LinearSlice over sympy)

Python exceptions are modelled by an explicit error type and Except;
machine rationals (exact kinds, and sympy rational constants) are
modelled by Lean rationals.  Floating-point rounding is not modelled:
the claims treated here concern kinds, shapes, errors and exact values,
never rounded magnitudes; where a tolerance comparison of the form
abs x < tol occurs in the source, the embedding compares squared
magnitudes with the squared tolerance, which is equivalent because both
sides are nonnegative and tol is positive.
-/

/-- Python exception kinds raised by the embedded code paths. -/
inductive PyErr where
  | valueError
  | typeError
  | zeroDivisionError
  | notImplementedError
  | nonHomogeneousException
  | nonPolynomialException
  | generatorsNeeded
deriving DecidableEq, Repr

deriving instance DecidableEq for Except

/-! ## Symbol (naglib/core/symbols.py) -/

namespace SymbolPy

/-- Character class of the regex fragment A-z used by valid_sym in
symbols.py line 14: all code points from capital A (65) to lowercase z
(122), which includes the six non-letters between Z and a. -/
def charAz (c : Char) : Bool := decide ('A' ≤ c) && decide (c ≤ 'z')

/-- Character class of the regex fragment [A-z0-9_]. -/
def charRest (c : Char) : Bool :=
  charAz c || (decide ('0' ≤ c) && decide (c ≤ '9')) || decide (c = '_')

/-- The compiled pattern valid_sym from symbols.py line 14, as a whole
string match: one character of class A-z followed by characters of
class [A-z0-9_].  (The Python end anchor also matches before a single
trailing newline; that quirk plays no role in the claims and is not
modelled.) -/
def validSym (name : String) : Bool :=
  match name.data with
  | [] => false
  | c :: cs => charAz c && cs.all charRest

/-- Symbol.__init__ name validation (symbols.py lines 27-33): a name
failing the valid_sym pattern raises ValueError; otherwise the Symbol
stores the name.  The TypeError branch for non-string arguments is
outside the embedding, which types names as strings. -/
def symbolInit (name : String) : Except PyErr String :=
  if validSym name then .ok name else .error .valueError

/-- The other operand of a Symbol comparison: either another Symbol
(identified by its name) or any non-Symbol Python object, which the
isinstance test in symbols.py lines 69 and 76 collapses to one case. -/
inductive PyObj where
  | sym (name : String)
  | nonsym
deriving DecidableEq

/-- Symbol.__lt__ (symbols.py lines 66-71): a non-Symbol operand gives
False; otherwise the result is self._name > other._name, a Python
string comparison, which is code-point lexicographic exactly like the
order on Lean strings. -/
def symbolLt (selfName : String) : PyObj → Bool
  | .sym b => decide (b < selfName)
  | .nonsym => false

/-- Symbol.__gt__ (symbols.py lines 73-78): a non-Symbol operand gives
False; otherwise the result is self._name < other._name. -/
def symbolGt (selfName : String) : PyObj → Bool
  | .sym b => decide (selfName < b)
  | .nonsym => false

end SymbolPy

/-! ## Numeric tower (naglib/core/numbers.py) -/

namespace NumericPy

/-- The three concrete classes of the numeric tower. -/
inductive Kind where
  | float
  | rational
  | integer
deriving DecidableEq, Repr

/-- The dictionary pmap of Numeric.__coerce__ (numbers.py lines 158-160):
Float maps to 1, Rational to 2, Integer to 4. -/
def pmap : Kind → Nat
  | .float => 1
  | .rational => 2
  | .integer => 4

/-- The inverse dictionary pinv of Numeric.__coerce__ (line 161),
defined on the gcd values 1, 2 and 4 that can arise. -/
def pinv (n : Nat) : Kind :=
  if n = 1 then .float else if n = 2 then .rational else .integer

/-- Numeric.__coerce__ without try_float (numbers.py lines 153-178): the
result class of a binary operation is pinv of the gcd of the two pmap
codes.  Between tower operands the KeyError branch cannot fire. -/
def coerce (a b : Kind) : Kind := pinv (Nat.gcd (pmap a) (pmap b))

/-- The looser kind under the promotion lattice
Integer < Rational < Float, written from the wording of the spec
(section 4.1) to compare against the coercion the code computes. -/
def specLooser (a b : Kind) : Kind :=
  match a, b with
  | .float, _ => .float
  | _, .float => .float
  | .rational, _ => .rational
  | _, .rational => .rational
  | .integer, .integer => .integer

/-- A numeric-tower value: its class and its exact real and imaginary
parts.  Float parts are carried exactly (rounding unmodelled); the
precision attribute is not needed by the claims treated here. -/
structure Value where
  kind : Kind
  re : ℚ
  im : ℚ
deriving DecidableEq, Repr

/-- Default tolerance tol = 1e-15 from naglib/envconstants.py line 3. -/
def tolQ : ℚ := 1 / 10 ^ 15

/-- The is_zero test: exact comparison for Integer and Rational
(numbers.py line 609), abs(self) < tol for Float (line 1096), stated on
squared magnitudes. -/
def isZeroVal (v : Value) : Bool :=
  match v.kind with
  | .float => decide (v.re ^ 2 + v.im ^ 2 < tolQ ^ 2)
  | _ => decide (v.re = 0 ∧ v.im = 0)

/-- The guard of __div__ (numbers.py line 381):
other == 0 or other.is_zero(). -/
def divZeroGuard (v : Value) : Bool :=
  (decide (v.re = 0) && decide (v.im = 0)) || isZeroVal v

/-- Construction of a value of a given class from computed parts,
modelling cls((real, imag)) at the end of each arithmetic operator:
Integer.__init__ re-parses each part via init_integer and raises
ValueError when a part is not an integer (numbers.py lines 69-89 and
1169-1183); Rational and Float construction accepts any rational part. -/
def mkValue (k : Kind) (re im : ℚ) : Except PyErr Value :=
  match k with
  | .integer =>
      if re.den = 1 ∧ im.den = 1 then .ok ⟨k, re, im⟩ else .error .valueError
  | _ => .ok ⟨k, re, im⟩

/-- Numeric.__add__ (numbers.py lines 223-246): coerce the classes,
add componentwise, construct the coerced class from the parts. -/
def numAdd (a b : Value) : Except PyErr Value :=
  mkValue (coerce a.kind b.kind) (a.re + b.re) (a.im + b.im)

/-- Numeric.__sub__ (numbers.py lines 273-296). -/
def numSub (a b : Value) : Except PyErr Value :=
  mkValue (coerce a.kind b.kind) (a.re - b.re) (a.im - b.im)

/-- Numeric.__mul__ (numbers.py lines 323-346): complex product of the
parts, constructed at the coerced class. -/
def numMul (a b : Value) : Except PyErr Value :=
  mkValue (coerce a.kind b.kind)
    (a.re * b.re - a.im * b.im) (a.re * b.im + a.im * b.re)

/-- Numeric.__div__ (numbers.py lines 373-402): coerce, test the divisor
against zero (ZeroDivisionError), then form the complex quotient and
construct the coerced class from the resulting parts.  For two Integer
operands the coerced class is Integer, so a quotient with a
non-integral part is rejected by Integer.__init__ with ValueError. -/
def numDiv (a b : Value) : Except PyErr Value :=
  if divZeroGuard b then .error .zeroDivisionError
  else
    let d := b.re ^ 2 + b.im ^ 2
    mkValue (coerce a.kind b.kind)
      ((a.re * b.re + a.im * b.im) / d) ((a.im * b.re - a.re * b.im) / d)

end NumericPy

/-! ## Monomial, Term, Polynomial (naglib/algebra/polynomial.py) -/

namespace PolyPy

/-- Monomial._degrees: the exponent dictionary of a monomial, as an
association list from symbol names to integer exponents (negative
exponents are permitted by the Monomial class). -/
abbrev MonD := List (String × Int)

/-- Monomial.total_degree (polynomial.py lines 307-310): the sum of the
exponent dictionary values. -/
def monTotalDegree (m : MonD) : Int := (m.map Prod.snd).sum

/-- Term: a monomial together with a coefficient, its exact value
modelled as a rational. -/
structure TermP where
  degrees : MonD
  coeff : ℚ
deriving DecidableEq

/-- Term.total_degree is inherited from Monomial. -/
def termTotalDegree (t : TermP) : Int := monTotalDegree t.degrees

mutual
/-- Polynomial, a tagged variant (polynomial.py lines 745-779): a list
of summands, a list of factors (deferred product), or a base raised to
an integer exponent. -/
inductive PolyRep where
  | sums (l : SummandList)
  | facts (l : FactorList)
  | pows (base : PolyRep) (exp : Int)

/-- The _summands list: its elements are Terms or nested Polynomials
(polynomial.py lines 874-878). -/
inductive SummandList where
  | nil
  | cons (s : SummandElem) (rest : SummandList)

/-- One summand. -/
inductive SummandElem where
  | term (t : TermP)
  | poly (p : PolyRep)

/-- The _factors list: its elements are Monomials, Terms or nested
Polynomials. -/
inductive FactorList where
  | nil
  | cons (f : FactorElem) (rest : FactorList)

/-- One factor. -/
inductive FactorElem where
  | mono (m : MonD)
  | term (t : TermP)
  | poly (p : PolyRep)
end

mutual
/-- Polynomial.total_degree (polynomial.py lines 1420-1431), with the
Python exceptions made explicit as none: for the summand variant it is
max of the list of summand degrees, and max of an empty list raises
ValueError, so the empty summand list yields none; for the factor
variant it is sum (empty sum is 0); for the power variant it is the
base degree times the exponent.  A none arising in a nested degree
propagates, as the corresponding Python exception would. -/
def PolyRep.totalDegree : PolyRep → Option Int
  | .sums l =>
      match l.degreesList with
      | some ds => ds.max?
      | none => none
  | .facts l =>
      match l.degreesList with
      | some ds => some ds.sum
      | none => none
  | .pows b e =>
      match b.totalDegree with
      | some d => some (d * e)
      | none => none

/-- The list comprehension [s.total_degree() for s in summands]: all
summand degrees, none as soon as one of them fails. -/
def SummandList.degreesList : SummandList → Option (List Int)
  | .nil => some []
  | .cons s rest =>
      match s.degreeOf, rest.degreesList with
      | some d, some ds => some (d :: ds)
      | _, _ => none

/-- total_degree of one summand. -/
def SummandElem.degreeOf : SummandElem → Option Int
  | .term t => some (termTotalDegree t)
  | .poly p => p.totalDegree

/-- The list comprehension [f.total_degree() for f in factors]. -/
def FactorList.degreesList : FactorList → Option (List Int)
  | .nil => some []
  | .cons f rest =>
      match f.degreeOf, rest.degreesList with
      | some d, some ds => some (d :: ds)
      | _, _ => none

/-- total_degree of one factor. -/
def FactorElem.degreeOf : FactorElem → Option Int
  | .mono m => some (monTotalDegree m)
  | .term t => some (termTotalDegree t)
  | .poly p => p.totalDegree
end

/-- Polynomial() with no arguments (polynomial.py lines 770-779): the
IndexError path with no keyword falls through to the zero polynomial,
_summands = [].  __combine_summands__ and __order_summands__ leave the
empty list empty (lines 865-931), so this is the constructed object. -/
def polyInitEmpty : PolyRep := .sums .nil

end PolyPy

/-! ## LinearSlice (core/algebra.py lines 672-763) -/

namespace SlicePy

/-- A sympy scalar as it can appear in a slice coefficient matrix after
division: an exact number, complex infinity zoo (the sympy value of a
nonzero number divided by zero), or nan (zero times zoo). -/
inductive SEnt where
  | num (q : ℚ)
  | zoo
  | nan
deriving DecidableEq, Repr

/-- sympy reciprocal: 1/0 is zoo, 1/zoo is 0, 1/nan is nan. -/
def symInv : SEnt → SEnt
  | .num q => if q = 0 then .zoo else .num q⁻¹
  | .zoo => .num 0
  | .nan => .nan

/-- sympy product: nan is absorbing; zoo times zero is nan, zoo times
anything else is zoo. -/
def symMul : SEnt → SEnt → SEnt
  | .nan, _ => .nan
  | _, .nan => .nan
  | .zoo, .zoo => .zoo
  | .zoo, .num q => if q = 0 then .nan else .zoo
  | .num q, .zoo => if q = 0 then .nan else .zoo
  | .num a, .num b => .num (a * b)

/-- LinearSlice: coefficient matrix (rows), variable list (field vars,
because the source attribute name is a Lean keyword), optional
homogenizing variable (algebra.py lines 678-692). -/
structure LinearSlice where
  coeffs : List (List SEnt)
  vars : List String
  homvar : Option String
deriving DecidableEq, Repr

/-- LinearSlice.dehomogenize (algebra.py lines 719-737): with no
homogenizing variable, return self; otherwise locate the variable
(list.index, ValueError if absent), drop that variable and that column,
and divide every row by its removed-column entry.  The division is
sympy row times 1/entry: a zero entry makes the factor zoo, and the
row entries become zoo or nan, with no exception raised; the resulting
matrix is returned inside a new LinearSlice. -/
def dehomogenize (s : LinearSlice) : Except PyErr LinearSlice :=
  match s.homvar with
  | none => .ok s
  | some h =>
    match s.vars.findIdx? (· = h) with
    | none => .error .valueError
    | some dex =>
      let vs := s.vars.eraseIdx dex
      let rows := s.coeffs.map (fun row =>
        let d := row.getD dex (.num 0)
        (row.eraseIdx dex).map (fun e => symMul e (symInv d)))
      .ok (LinearSlice.mk rows vs none)

end SlicePy

/-! ## PolynomialSystem (core/algebra.py lines 7-670)

The polynomials of a PolynomialSystem are sympy expressions; the
embedding represents them in expanded normal form, as lists of terms,
each term an exponent list over symbol names with a rational
coefficient.  The sympy operations used by the source (Add with its
automatic like-term collection, expand, subs, diff, as_poly degrees)
are embedded as the corresponding operations on term lists. -/

namespace AlgPy

/-- A complex number with exact rational parts, the value domain for
the generic points of rank and equals. -/
structure GRat where
  re : ℚ
  im : ℚ
deriving DecidableEq, Repr

/-- Complex addition on exact parts. -/
def gAdd (a b : GRat) : GRat := ⟨a.re + b.re, a.im + b.im⟩

/-- Complex subtraction on exact parts. -/
def gSub (a b : GRat) : GRat := ⟨a.re - b.re, a.im - b.im⟩

/-- Complex multiplication on exact parts. -/
def gMul (a b : GRat) : GRat := ⟨a.re * b.re - a.im * b.im, a.re * b.im + a.im * b.re⟩

/-- Complex zero. -/
def gZero : GRat := ⟨0, 0⟩

/-- Complex one. -/
def gOne : GRat := ⟨1, 0⟩

/-- Complex natural power by iterated product. -/
def gPow (a : GRat) : Nat → GRat
  | 0 => gOne
  | n + 1 => gMul a (gPow a n)

/-- Complex division on exact parts. -/
def gDiv (a b : GRat) : GRat :=
  let d := b.re ^ 2 + b.im ^ 2
  ⟨(a.re * b.re + a.im * b.im) / d, (a.im * b.re - a.re * b.im) / d⟩

/-- Squared modulus. -/
def gNormSq (a : GRat) : ℚ := a.re ^ 2 + a.im ^ 2

/-- A monomial: exponent list over symbol names.  Well-formed monomials
have pairwise distinct keys and nonzero exponents (sympy products keep
no zeroth powers). -/
abbrev Mon := List (String × Nat)

/-- Exponent of a symbol in a monomial, 0 when absent. -/
def lookupExp (m : Mon) (k : String) : Nat := (m.lookup k).getD 0

/-- Total degree of a monomial: the sum of its exponents. -/
def monDeg (m : Mon) : Nat := (m.map Prod.snd).sum

/-- Degree of a monomial counting only the exponents of symbols drawn
from the given list. -/
def varDeg (vs : List String) (m : Mon) : Nat :=
  monDeg (m.filter (fun kv => decide (kv.1 ∈ vs)))

/-- Equality of monomials as sympy power products: the same exponent
at every symbol of either. -/
def monEq (m1 m2 : Mon) : Bool :=
  m1.all (fun kv => lookupExp m2 kv.1 = kv.2) &&
  m2.all (fun kv => lookupExp m1 kv.1 = kv.2)

/-- A polynomial in expanded normal form: a list of terms, each a
monomial with a rational coefficient. -/
abbrev Poly := List (Mon × ℚ)

/-- One step of sympy like-term collection: merge a term into an
accumulated list, adding coefficients when an equal monomial is
already present, appending otherwise. -/
def insertTerm (acc : Poly) (t : Mon × ℚ) : Poly :=
  match acc with
  | [] => [t]
  | u :: rest => if monEq u.1 t.1 then (u.1, u.2 + t.2) :: rest else u :: insertTerm rest t

/-- sympy automatic collection as performed by Add and expand: combine
like terms and drop the terms whose coefficient became zero. -/
def combine (l : Poly) : Poly :=
  (l.foldl insertTerm []).filter (fun t => !decide (t.2 = 0))

/-- Entrywise sympy addition of two expanded polynomials. -/
def polyAdd (p q : Poly) : Poly := combine (p ++ q)

/-- sympy negation of an expanded polynomial. -/
def negPoly (p : Poly) : Poly := p.map (fun t => (t.1, -t.2))

/-- Remove from a monomial the symbols named in the given list,
modelling substitution of those symbols by 1. -/
def monFilterOut (ks : List String) (m : Mon) : Mon :=
  m.filter (fun kv => decide (kv.1 ∉ ks))

/-- poly.subs(zip(params, ones)) on an expanded polynomial: erase the
parameter exponents and let sympy re-collect the terms. -/
def substParamsOne (pars : List String) (p : Poly) : Poly :=
  combine (p.map (fun t => (monFilterOut pars t.1, t.2)))

/-- poly.subs on a single symbol replaced by 1. -/
def substOne (v : String) (p : Poly) : Poly :=
  combine (p.map (fun t => (monFilterOut [v] t.1, t.2)))

/-- Free symbols of an expanded polynomial: the keys of its monomials,
possibly with repetitions (only membership is ever used). -/
def freeSyms (p : Poly) : List String :=
  p.foldr (fun t acc => t.1.map Prod.fst ++ acc) []

/-- Union of the free symbols of a list of polynomials. -/
def sysFreeSyms (ps : List Poly) : List String :=
  ps.foldr (fun p acc => freeSyms p ++ acc) []

/-- sympy is_number on an expanded polynomial: no free symbols, that
is, every term is constant (true in particular for the zero
polynomial). -/
def isNumberP (p : Poly) : Bool := p.all (fun t => t.1.isEmpty)

/-- as_poly().total_degree() on a non-number expanded polynomial: the
maximum total degree of its monomials. -/
def maxDeg (p : Poly) : Nat := p.foldl (fun a t => max a (monDeg t.1)) 0

/-- The degree the PolynomialSystem constructor records for one
polynomial (algebra.py lines 101-106): parameters are substituted by 1
first; a number has degree 0, anything else its total degree. -/
def polyDeg (pars : List String) (p : Poly) : Nat :=
  let psub := substParamsOne pars p
  if isNumberP psub then 0 else maxDeg psub

/-- The homogeneity test of the constructor (algebra.py lines 107-118)
on the parameter-substituted polynomial: a numeric term is allowed only
when the recorded degree is 0, and every other term must have exactly
the recorded degree. -/
def homogOK (pars : List String) (p : Poly) (deg : Nat) : Bool :=
  (substParamsOne pars p).all (fun t =>
    if t.1.isEmpty then decide (deg = 0) else decide (monDeg t.1 = deg))

/-- The per-polynomial body of the constructor loop (algebra.py lines
100-119): record the degree, and when a homogenizing variable is
present raise NonHomogeneousException unless the polynomial passes the
degree test. -/
def degreeAndCheck (pars : List String) (hom : Bool) (p : Poly) : Except PyErr Nat :=
  let deg := polyDeg pars p
  if hom then
    if homogOK pars p deg then .ok deg else .error .nonHomogeneousException
  else .ok deg

/-- Code-point lexicographic comparison of character lists, the order
Python string comparison uses. -/
def charsLe : List Char → List Char → Bool
  | [], _ => true
  | _ :: _, [] => false
  | a :: as, b :: bs =>
    if a.val < b.val then true else if b.val < a.val then false else charsLe as bs

/-- Python string comparison a less-or-equal b. -/
def strLe (a b : String) : Bool := charsLe a.data b.data

/-- Stable insertion into a sorted list under strLe. -/
def insSorted (a : String) : List String → List String
  | [] => [a]
  | b :: l => if strLe a b then a :: b :: l else b :: insSorted a l

/-- Python sorted() on strings: code-point lexicographic order.  A
stable insertion sort computes it (the lists sorted by the source are
duplicate-free, so any sorting algorithm agrees). -/
def sortStr (l : List String) : List String := l.foldr insSorted []

/-- The variable-inference branch of the constructor (algebra.py lines
62-73): the union of the free symbols of the polynomials, minus the
parameters, sorted by name.  Python reduce over an empty sequence (no
polynomials at all) raises TypeError. -/
def inferVars (polys : List Poly) (pars : List String) : Except PyErr (List String) :=
  if polys.isEmpty then .error .typeError
  else .ok (sortStr (((sysFreeSyms polys).dedup).filter (fun v => decide (v ∉ pars))))

/-- A PolynomialSystem: polynomials, variable list, parameter list,
optional homogenizing variable, recorded per-polynomial degrees.  The
source attribute names _variables and _parameters become vars and
params (the former is a Lean keyword); the cached counts
_num_variables and _num_polynomials are derivable lengths and are not
carried. -/
structure PolySystem where
  polynomials : List Poly
  vars : List String
  params : List String
  homvar : Option String
  degree : List Nat
deriving DecidableEq, Repr

/-- PolynomialSystem.__init__ (algebra.py lines 11-123): polynomiality
holds by representation (the NonPolynomialException branch cannot fire
on term lists); an empty variable argument triggers inference; a
homogenizing variable must be one of the variables (ValueError
otherwise) and switches on the homogeneity check; the degrees are
recorded as computed. The multihomogeneous branch (a list of more than
one homogenizing variable, NotImplementedError) is outside this
embedding, which types the argument as an Option. -/
def mkSystem (polys : List Poly) (varsArg paramsArg : List String)
    (homvarArg : Option String) : Except PyErr PolySystem :=
  match (if varsArg.isEmpty then inferVars polys paramsArg else .ok varsArg) with
  | .error e => .error e
  | .ok vs =>
    match homvarArg with
    | some h =>
      if h ∈ vs then
        match polys.mapM (degreeAndCheck paramsArg true) with
        | .error e => .error e
        | .ok degs => .ok (PolySystem.mk polys vs paramsArg (some h) degs)
      else .error .valueError
    | none =>
      match polys.mapM (degreeAndCheck paramsArg false) with
      | .error e => .error e
      | .ok degs => .ok (PolySystem.mk polys vs paramsArg none degs)

/-- PolynomialSystem.shape (algebra.py lines 666-670). -/
def shape (s : PolySystem) : Nat × Nat := (s.polynomials.length, s.vars.length)

/-- The role-collision test of __add__ (algebra.py lines 204-207 and
232-235): a variable of one summand may not be a parameter of the
other. -/
def overlapChk (s o : PolySystem) : Bool :=
  s.vars.any (fun v => v ∈ o.params) || s.params.any (fun v => v ∈ o.vars)

/-- The shared tail of both branches of __add__ (algebra.py lines
209-219 and 237-247): add the polynomial vectors entrywise, keep of the
united variables and parameters only those still free in the sum, sort
both by name, and construct the result through the constructor. -/
def addCombine (s o : PolySystem) (hv : Option String) : Except PyErr PolySystem :=
  let newpoly := List.zipWith polyAdd s.polynomials o.polynomials
  let newpsym := sysFreeSyms newpoly
  let newvars := sortStr (((s.vars ++ o.vars).dedup).filter (fun v => decide (v ∈ newpsym)))
  let newpars := sortStr (((s.params ++ o.params).dedup).filter (fun v => decide (v ∈ newpsym)))
  mkSystem newpoly newvars newpars hv

/-- PolynomialSystem.__add__ (algebra.py lines 171-247): systems of
different polynomial counts are rejected with ValueError; with both
homogenizing variables present and equal the degrees must also agree,
otherwise NotImplementedError; any other homogenizing combination
(exactly one present, or two different ones) is NotImplementedError;
with neither present the result is a plain system.  In the two
surviving branches a variable/parameter role collision is ValueError. -/
def sysAdd (s o : PolySystem) : Except PyErr PolySystem :=
  if s.polynomials.length ≠ o.polynomials.length then .error .valueError
  else
    match s.homvar, o.homvar with
    | some h1, some h2 =>
      if h1 = h2 then
        if s.degree = o.degree then
          if overlapChk s o then .error .valueError
          else addCombine s o (some h1)
        else .error .notImplementedError
      else .error .notImplementedError
    | some _, none => .error .notImplementedError
    | none, some _ => .error .notImplementedError
    | none, none =>
      if overlapChk s o then .error .valueError
      else addCombine s o none

/-- PolynomialSystem.__neg__ (algebra.py lines 161-169): negate the
polynomial vector and rebuild through the constructor with the same
variables, parameters and homogenizing variable. -/
def sysNeg (s : PolySystem) : Except PyErr PolySystem :=
  mkSystem (s.polynomials.map negPoly) s.vars s.params s.homvar

/-- PolynomialSystem.__sub__ (algebra.py lines 249-259): negate the
right operand, then add. -/
def sysSub (s o : PolySystem) : Except PyErr PolySystem :=
  (sysNeg o).bind (fun o2 => sysAdd s o2)

/-- PolynomialSystem.__mul__ by a scalar (algebra.py lines 261-277):
scale every polynomial; multiplication by exactly 0 rebuilds with no
variable, parameter or homogenizing metadata (the inference branch of
the constructor). -/
def sysMul (s : PolySystem) (c : ℚ) : Except PyErr PolySystem :=
  let polys := s.polynomials.map (fun p => combine (p.map (fun t => (t.1, c * t.2))))
  if c = 0 then mkSystem polys [] [] none
  else mkSystem polys s.vars s.params s.homvar

/-- PolynomialSystem.__truediv__ by a scalar (algebra.py lines
285-301): a zero divisor raises ZeroDivisionError, otherwise every
polynomial is divided and the metadata kept. -/
def sysDiv (s : PolySystem) (c : ℚ) : Except PyErr PolySystem :=
  if c = 0 then .error .zeroDivisionError
  else mkSystem (s.polynomials.map (fun p => combine (p.map (fun t => (t.1, t.2 / c)))))
    s.vars s.params s.homvar

/-- PolynomialSystem.assign_parameters (algebra.py lines 303-318).  The
method returns None; its effect is the in-place reassignment of the
_parameters and _variables attributes, so the embedding returns the
post-state of the receiver: parameters become the union of the old
parameters with the given symbols, variables the old variables minus
that union, both sorted by name; polynomials, homogenizing variable and
recorded degrees are not touched. -/
def assignParameters (s : PolySystem) (ps : List String) : PolySystem :=
  let newpars := sortStr ((s.params ++ ps).dedup)
  let newvars := sortStr ((s.vars.filter (fun v => decide (v ∉ s.params ++ ps))).dedup)
  { s with params := newpars, vars := newvars }

/-- PolynomialSystem.dehomogenize (algebra.py lines 320-344): with no
homogenizing variable return self; otherwise expand every polynomial
(the identity on the normal form), substitute the homogenizing variable
by 1, remove its first occurrence from the variable list, and rebuild a
plain system.  list.index on a missing variable would be ValueError,
although the constructor invariant rules the case out. -/
def dehomogenize (s : PolySystem) : Except PyErr PolySystem :=
  match s.homvar with
  | none => .ok s
  | some h =>
    if h ∈ s.vars then
      mkSystem (s.polynomials.map (substOne h)) (s.vars.erase h) s.params none
    else .error .valueError

/-- The fresh-name loop of homogenize (algebra.py lines 425-431): start
from the name p and append the digit 0 while the candidate is among the
variables or parameters.  The loop is given one round of fuel per
avoided name, which is enough (the candidates all have different
lengths). -/
def freshFrom (avoid : List String) : Nat → String → String
  | 0, cur => cur
  | fuel + 1, cur => if cur ∈ avoid then freshFrom avoid fuel (cur ++ "0") else cur

/-- The homogenizing variable homogenize manufactures. -/
def freshHomvar (s : PolySystem) : String :=
  let avoid := s.vars ++ s.params
  freshFrom avoid (avoid.length + 1) "p"

/-- The effect of p0 raised to the degree times p.subs(v maps to v/p0),
expanded, on one term (algebra.py lines 433-441): the term picks up the
factor p0 to the power d minus its degree in the variables, and sympy
keeps no zeroth power. -/
def homTerm (p0 : String) (vs : List String) (d : Nat) (t : Mon × ℚ) : Mon × ℚ :=
  let e := d - varDeg vs t.1
  (if e = 0 then t.1 else (p0, e) :: t.1, t.2)

/-- PolynomialSystem.homogenize (algebra.py lines 411-442): with a
homogenizing variable already present return self.  Otherwise every
polynomial is expanded and its as_poly().total_degree() taken: on a
polynomial with no free symbols that backend call fails (sympy
GeneratorsNeeded escapes as_poly), which the embedding surfaces as an
error.  A fresh symbol is manufactured, every variable v is rewritten
as v/p0, the polynomial is scaled by p0 to its total degree and
expanded, and the result is rebuilt with the fresh symbol first in the
variable list and set as the homogenizing variable. -/
def homogenize (s : PolySystem) : Except PyErr PolySystem :=
  match s.homvar with
  | some _ => .ok s
  | none =>
    if s.polynomials.any isNumberP then .error .generatorsNeeded
    else
      let p0 := freshHomvar s
      let hpolys := s.polynomials.map (fun p =>
        combine (p.map (homTerm p0 s.vars (maxDeg p))))
      mkSystem hpolys (p0 :: s.vars) s.params (some p0)

/-- PolynomialSystem.subs for the representative case of one symbol
replaced by a rational constant (algebra.py lines 600-612): substitute
in every polynomial and rebuild through the bare constructor, which
deliberately loses all parameter and homogenizing metadata. -/
def subsConst (s : PolySystem) (v : String) (c : ℚ) : Except PyErr PolySystem :=
  let psubs := s.polynomials.map (fun p =>
    combine (p.map (fun t => (monFilterOut [v] t.1, t.2 * c ^ lookupExp t.1 v))))
  mkSystem psubs [] [] none

/-- TOL = 1e-15 from startup.py line 2, the zero tolerance of rank and
the equality tolerance of equals. -/
def TOLq : ℚ := 1 / 10 ^ 15

/-- Value of a monomial at an assignment of complex values to symbol
names. -/
def monEval (σ : String → GRat) (m : Mon) : GRat :=
  m.foldl (fun acc kv => gMul acc (gPow (σ kv.1) kv.2)) gOne

/-- Value of an expanded polynomial at an assignment. -/
def polyEval (σ : String → GRat) (p : Poly) : GRat :=
  p.foldl (fun acc t => gAdd acc (gMul ⟨t.2, 0⟩ (monEval σ t.1))) gZero

/-- The positional assignment built by zip(symbols, values): each
symbol name takes the value at its first position in the list. -/
def assign (names : List String) (pts : List GRat) (k : String) : GRat :=
  match names.findIdx? (· = k) with
  | some i => pts.getD i gZero
  | none => gZero

/-- Sum of squared moduli: the square of the sympy matrix norm of a
vector of values. -/
def normSqList (l : List GRat) : ℚ := (l.map gNormSq).sum

/-- Outcome of the random-point loop of rank and equals: a point per
slot with the unconsumed draws, or a ZeroDivisionError (with the draws
remaining after the failing division), or too few modelled draws. -/
inductive GenRes where
  | okp (pts : List GRat) (rest : List ℚ)
  | zerodiv (rest : List ℚ)
  | exhausted
deriving DecidableEq, Repr

/-- The loop for i in range(n): real = rand()/rand(); imag =
rand()/rand() (algebra.py lines 487-495 and 380-387), over an explicit
stream of pseudo-random draws consumed four per slot, numerator first.
A zero denominator draw is the ZeroDivisionError the source catches. -/
def genPoints (n : Nat) (draws : List ℚ) : GenRes :=
  match n, draws with
  | 0, rest => .okp [] rest
  | _ + 1, r1 :: r2 :: rest =>
    if r2 = 0 then .zerodiv rest
    else
      match rest with
      | r3 :: r4 :: rest2 =>
        if r4 = 0 then .zerodiv rest2
        else
          match n, genPoints (n - 1) rest2 with
          | _, .okp pts rest3 => .okp (⟨r1 / r2, r3 / r4⟩ :: pts) rest3
          | _, other => other
      | _ => .exhausted
  | _ + 1, _ => .exhausted

/-- PolynomialSystem.equals (algebra.py lines 346-393).  The sameObj
argument models Python object identity of receiver and argument, which
is what the expression self == other computes in the except branch
(NAGobject inherits the default __eq__); draws is the explicit
pseudo-random stream.  Shapes must agree; under strict the
concatenated variable and parameter name lists must agree; one shared
generic point is drawn per slot, a ZeroDivisionError during the draw
returning self == other instead; finally the two polynomial vectors
are evaluated positionally at the shared point and declared equal when
the norm of the difference is below TOL (compared here as squares). -/
def sysEquals (s o : PolySystem) (strict : Bool) (sameObj : Bool)
    (draws : List ℚ) : Option Bool :=
  if shape s ≠ shape o then some false
  else
    let salls := s.vars ++ s.params
    let oalls := o.vars ++ o.params
    if strict && decide (salls ≠ oalls) then some false
    else
      match genPoints salls.length draws with
      | .exhausted => none
      | .zerodiv _ => some sameObj
      | .okp pts _ =>
        let σs := assign salls pts
        let σo := assign oalls pts
        let res := List.zipWith (fun p q => gSub (polyEval σs p) (polyEval σo q))
          s.polynomials o.polynomials
        some (decide (normSqList res < TOLq ^ 2))

/-- Derivative of one term with respect to a symbol: a term not
containing the symbol differentiates to nothing, the others lower its
exponent and scale the coefficient. -/
def diffTerm (v : String) (t : Mon × ℚ) : Option (Mon × ℚ) :=
  let e := lookupExp t.1 v
  if e = 0 then none
  else
    some (t.1.filterMap (fun kv =>
      if kv.1 = v then (if kv.2 = 1 then none else some (kv.1, kv.2 - 1)) else some kv),
      t.2 * (e : ℚ))

/-- sympy diff of an expanded polynomial with respect to a symbol. -/
def diffPoly (v : String) (p : Poly) : Poly := combine (p.filterMap (diffTerm v))

/-- PolynomialSystem.jacobian (algebra.py lines 444-457): the matrix of
partial derivatives, one row per polynomial, one column per variable. -/
def jacobian (s : PolySystem) : List (List Poly) :=
  s.polynomials.map (fun p => s.vars.map (fun v => diffPoly v p))

/-- The jacobian substituted at an assignment of values. -/
def jacEval (s : PolySystem) (σ : String → GRat) : List (List GRat) :=
  (jacobian s).map (fun row => row.map (polyEval σ))

/-- The iszero lambda of rank (algebra.py line 501), abs x below tol
stated on squares. -/
def isZeroTol (tol : ℚ) (z : GRat) : Bool := decide (gNormSq z < tol ^ 2)

/-- Row operation of Gaussian elimination. -/
def subRow (factor : GRat) (piv r : List GRat) : List GRat :=
  List.zipWith (fun a b => gSub a (gMul factor b)) r piv

/-- Numeric matrix rank with a zero test, by column-wise Gaussian
elimination: this models the backend call jac.rank(iszero), a sympy
library routine outside the repository, under its documented contract
of row reduction with the supplied zero decision.  The first argument
counts the columns still to process. -/
def elimRank (iszero : GRat → Bool) : Nat → List (List GRat) → Nat
  | 0, _ => 0
  | c + 1, rows =>
    match rows.find? (fun r => !iszero (r.headD gZero)) with
    | none => elimRank iszero c (rows.map List.tail)
    | some piv =>
      let others := rows.erase piv
      let reduced := others.map (fun r => subRow (gDiv (r.headD gZero) (piv.headD gZero)) piv r)
      1 + elimRank iszero c (reduced.map List.tail)

/-- PolynomialSystem.rank (algebra.py lines 471-502): draw a generic
complex value per variable and parameter, substitute into the symbolic
jacobian, and take the numeric rank under the given tolerance.  A
ZeroDivisionError while drawing retries by the bare recursive call
self.rank(), which restarts the draw on the remaining stream and —
having passed no argument — replaces a caller-supplied tolerance by the
default TOL.  The source recursion is unbounded; fuel counts the
retries the model allows before giving up with none. -/
def sysRank (s : PolySystem) (tol : ℚ) (fuel : Nat) (draws : List ℚ) : Option Nat :=
  match genPoints (s.vars ++ s.params).length draws with
  | .exhausted => none
  | .zerodiv rest =>
    match fuel with
    | 0 => none
    | fuel + 1 => sysRank s TOLq fuel rest
  | .okp pts _ =>
    some (elimRank (isZeroTol tol) s.vars.length (jacEval s (assign (s.vars ++ s.params) pts)))

/-- Well-formed monomial: pairwise distinct symbols, no zero exponent. -/
@[reducible] def MonWf (m : Mon) : Prop := (m.map Prod.fst).Nodup ∧ ∀ kv ∈ m, kv.2 ≠ 0

/-- Expanded normal form of sympy: well-formed monomials, no zero
coefficients, no two terms with the same monomial. -/
@[reducible] def PolyWf (p : Poly) : Prop :=
  (∀ t ∈ p, MonWf t.1 ∧ t.2 ≠ 0) ∧ p.Pairwise (fun t u => monEq t.1 u.1 = false)

/-- Invariant of a constructed PolynomialSystem: normal-form
polynomials whose symbols all carry a variable or parameter role,
disjoint roles, the recorded degrees, and, when a homogenizing
variable is present, its membership in the variables together with the
homogeneity of every polynomial. -/
@[reducible] def SysInv (s : PolySystem) : Prop :=
  (∀ p ∈ s.polynomials, PolyWf p) ∧
  (∀ p ∈ s.polynomials, ∀ t ∈ p, ∀ kv ∈ t.1, kv.1 ∈ s.vars ++ s.params) ∧
  (∀ v ∈ s.vars, v ∉ s.params) ∧
  s.degree = s.polynomials.map (polyDeg s.params) ∧
  (∀ h ∈ s.homvar.toList,
    h ∈ s.vars ∧ ∀ p ∈ s.polynomials, homogOK s.params p (polyDeg s.params p) = true)

/-- Term-by-term homogeneity of one polynomial with the parameters
discounted: the degree of every monomial outside the parameters is the
given one.  Parameter-free normal forms passing the constructor test
satisfy it; it rules out parameter cancellations resurfacing under a
sum. -/
@[reducible] def TermwiseHomog (pars : List String) (p : Poly) (d : Nat) : Prop :=
  ∀ t ∈ p, monDeg (monFilterOut pars t.1) = d

/-! Concrete systems used as counterexamples and witnesses.  Each is
the record the constructor produces on the stated input; the theorems
that use one re-verify this reachability through mkSystem. -/

/-- The system of x squared plus y squared minus 1 over variables x, y. -/
def exCircle : PolySystem :=
  ⟨[[([("x", 2)], 1), ([("y", 2)], 1), ([], -1)]], ["x", "y"], [], none, [2]⟩

/-- The system of x plus y over variables x, y. -/
def exXY : PolySystem :=
  ⟨[[([("x", 1)], 1), ([("y", 1)], 1)]], ["x", "y"], [], none, [1]⟩

/-- The homogeneous system of the single polynomial x with homogenizing
variable x. -/
def exHomX : PolySystem := ⟨[[([("x", 1)], 1)]], ["x"], [], some "x", [1]⟩

/-- The plain system of the single polynomial x. -/
def exPlainX : PolySystem := ⟨[[([("x", 1)], 1)]], ["x"], [], none, [1]⟩

/-- The system of x squared minus 1 over the variable x. -/
def exF : PolySystem := ⟨[[([("x", 2)], 1), ([], -1)]], ["x"], [], none, [2]⟩

/-- The system of y squared minus 1 over the variable y. -/
def exG : PolySystem := ⟨[[([("y", 2)], 1), ([], -1)]], ["y"], [], none, [2]⟩

end AlgPy

/-! ## Theorems -/

/-- C1: the spec (and the repository test
TestIntegerOperations.test_division) require the quotient of two
Integer values that do not divide evenly to be a Rational; the code
instead coerces the result class of __div__ through the same gcd map
as addition, obtaining Integer, whose constructor re-parses the
non-integral quotient parts and raises ValueError.  Evaluated at the
test inputs Integer(2) and Integer(-3). -/
theorem numeric_div_integer_not_rational :
    NumericPy.numDiv ⟨.integer, 2, 0⟩ ⟨.integer, -3, 0⟩ = .error .valueError := by with_unfolding_all decide

/-- C7: LinearSlice.dehomogenize with a zero entry in the removed
column does not fail: sympy division by zero turns a row into complex
infinities, and the method returns a LinearSlice containing them.
Evaluated on the slice with coefficient row (0, 1), variables h, x and
homogenizing variable h. -/
theorem linearslice_dehom_zero_entry_returns_zoo :
    SlicePy.dehomogenize ⟨[[.num 0, .num 1]], ["h", "x"], some "h"⟩ =
      .ok ⟨[[.zoo]], ["x"], none⟩ := by with_unfolding_all decide

/-- C8: the Symbol name validator accepts names beginning with a
non-letter: its character class A-z spans the code points from capital
A to lowercase z and so admits the six characters between Z and a,
among them the caret and the underscore, contradicting the claimed
letter-first grammar and the error message of the source itself. -/
theorem symbol_init_accepts_caret :
    SymbolPy.symbolInit "^" = .ok "^" ∧
    SymbolPy.symbolInit "_a" = .ok "_a" ∧
    SymbolPy.symbolInit "1a" = .error .valueError := by with_unfolding_all decide

/-- C10: Symbol ordering is reversed with respect to name order:
a < b holds exactly when the name of a is lexicographically greater
than the name of b, a > b exactly when it is smaller, and comparison
with a non-Symbol returns False. -/
theorem symbol_ordering_reversed (a b : String) :
    (SymbolPy.symbolLt a (.sym b) = true ↔ b < a) ∧
    (SymbolPy.symbolGt a (.sym b) = true ↔ a < b) ∧
    SymbolPy.symbolLt a .nonsym = false ∧
    SymbolPy.symbolGt a .nonsym = false := by
  refine ⟨?_, ?_, rfl, rfl⟩ <;> simp [SymbolPy.symbolLt, SymbolPy.symbolGt]

/-- Witness for C10 at concrete names. -/
theorem symbol_ordering_reversed_witness :
    SymbolPy.symbolLt "b" (.sym "a") = true :=
  (symbol_ordering_reversed "b" "a").1.mpr
    (by rw [String.lt_iff_toList_lt]; decide)

/-- C3 counterexample: assign_parameters mutates the object it is
called on: on the system of x plus y (reachable through the
constructor as shown), assigning y as a parameter changes the
receiver, whose variable list shrinks to x and whose parameter list
becomes y. -/
theorem assign_parameters_mutates :
    AlgPy.mkSystem [[([("x", 1)], 1), ([("y", 1)], 1)]] ["x", "y"] [] none =
      .ok AlgPy.exXY ∧
    AlgPy.assignParameters AlgPy.exXY ["y"] ≠ AlgPy.exXY ∧
    (AlgPy.assignParameters AlgPy.exXY ["y"]).vars = ["x"] ∧
    (AlgPy.assignParameters AlgPy.exXY ["y"]).params = ["y"] := by with_unfolding_all decide

/-- C2 counterexample: adding a homogeneous system to a plain one (or
subtracting) does not succeed with a plain result: the source raises
NotImplementedError.  Both operands are reachable through the
constructor as shown. -/
theorem add_mixed_homogeneity_raises :
    AlgPy.mkSystem [[([("x", 1)], 1)]] ["x"] [] (some "x") = .ok AlgPy.exHomX ∧
    AlgPy.mkSystem [[([("x", 1)], 1)]] ["x"] [] none = .ok AlgPy.exPlainX ∧
    AlgPy.sysAdd AlgPy.exHomX AlgPy.exPlainX = .error .notImplementedError ∧
    AlgPy.sysSub AlgPy.exHomX AlgPy.exPlainX = .error .notImplementedError ∧
    AlgPy.sysAdd AlgPy.exPlainX AlgPy.exHomX = .error .notImplementedError := by with_unfolding_all decide

/-- C6 counterexample: a degenerate draw is not handled by resampling
in equals and does change what the operation computes: the systems of
x squared minus 1 and y squared minus 1, equal under the
probability-one test with strict False on any successful draw, compare
unequal when the first denominator draw is zero, because the except
branch returns the object identity self == other instead of
redrawing. -/
theorem equals_degenerate_draw_changes_result :
    AlgPy.sysEquals AlgPy.exF AlgPy.exG false false [1, 0, 1, 2] = some false ∧
    AlgPy.sysEquals AlgPy.exF AlgPy.exG false false [1, 2, 1, 2] = some true := by with_unfolding_all decide

/-! ### Helper lemmas on the embedded operations -/

/-- Terms an insertTerm produces carry a monomial of the accumulator or
of the inserted term. -/
theorem insertTerm_mon {acc : AlgPy.Poly} {t u : AlgPy.Mon × ℚ}
    (hu : u ∈ AlgPy.insertTerm acc t) :
    (∃ w ∈ acc, u.1 = w.1) ∨ u.1 = t.1 := by
  induction acc with
  | nil => simp [AlgPy.insertTerm] at hu; simp [hu]
  | cons a rest ih =>
    simp only [AlgPy.insertTerm] at hu
    by_cases hm : AlgPy.monEq a.1 t.1
    · rw [if_pos hm] at hu
      rcases List.mem_cons.mp hu with h | h
      · exact Or.inl ⟨a, List.mem_cons_self a rest, by rw [h]⟩
      · exact Or.inl ⟨u, List.mem_cons_of_mem a h, rfl⟩
    · rw [if_neg hm] at hu
      rcases List.mem_cons.mp hu with h | h
      · exact Or.inl ⟨a, List.mem_cons_self a rest, by rw [h]⟩
      · rcases ih h with ⟨w, hw, he⟩ | he
        · exact Or.inl ⟨w, List.mem_cons_of_mem a hw, he⟩
        · exact Or.inr he

/-- Terms of a fold of insertTerm carry a monomial of the accumulator
or of the input list. -/
theorem foldl_insertTerm_mon {l : AlgPy.Poly} :
    ∀ {acc : AlgPy.Poly} {u : AlgPy.Mon × ℚ}, u ∈ l.foldl AlgPy.insertTerm acc →
    (∃ w ∈ acc, u.1 = w.1) ∨ ∃ w ∈ l, u.1 = w.1 := by
  induction l with
  | nil => intro acc u hu; exact Or.inl ⟨u, hu, rfl⟩
  | cons a rest ih =>
    intro acc u hu
    rcases ih (by simpa using hu) with h | ⟨w, hw, he⟩
    · rcases h with ⟨w, hw, he⟩
      rcases insertTerm_mon hw with ⟨w2, hw2, he2⟩ | he2
      · exact Or.inl ⟨w2, hw2, he.trans he2⟩
      · exact Or.inr ⟨a, List.mem_cons_self a rest, he.trans he2⟩
    · exact Or.inr ⟨w, List.mem_cons_of_mem a hw, he⟩

/-- Every term of a combined polynomial carries the monomial of some
input term (combine merges coefficients but never invents monomials). -/
theorem combine_mon {l : AlgPy.Poly} {u : AlgPy.Mon × ℚ}
    (hu : u ∈ AlgPy.combine l) : ∃ w ∈ l, u.1 = w.1 := by
  have := List.mem_filter.mp hu
  rcases foldl_insertTerm_mon this.1 with ⟨w, hw, _⟩ | h
  · exact absurd hw (List.not_mem_nil w)
  · exact h

/-- Combined polynomials have no zero coefficient. -/
theorem combine_coeff_ne_zero {l : AlgPy.Poly} {u : AlgPy.Mon × ℚ}
    (hu : u ∈ AlgPy.combine l) : u.2 ≠ 0 := by
  have := (List.mem_filter.mp hu).2
  simpa using this

/-- insertTerm appends when no monomial of the accumulator matches. -/
theorem insertTerm_append {acc : AlgPy.Poly} {t : AlgPy.Mon × ℚ}
    (h : ∀ w ∈ acc, AlgPy.monEq w.1 t.1 = false) :
    AlgPy.insertTerm acc t = acc ++ [t] := by
  induction acc with
  | nil => rfl
  | cons a rest ih =>
    have ha := h a (List.mem_cons_self a rest)
    simp only [AlgPy.insertTerm, ha, Bool.false_eq_true, if_false, List.cons_append,
      List.cons.injEq, true_and]
    exact ih (fun w hw => h w (List.mem_cons_of_mem a hw))

/-- A fold of insertTerm over pairwise-distinct terms, starting from an
accumulator distinct from all of them, is plain concatenation. -/
theorem foldl_insertTerm_of_pairwise {l : AlgPy.Poly} :
    ∀ {acc : AlgPy.Poly},
    (∀ w ∈ acc, ∀ u ∈ l, AlgPy.monEq w.1 u.1 = false) →
    l.Pairwise (fun a b => AlgPy.monEq a.1 b.1 = false) →
    l.foldl AlgPy.insertTerm acc = acc ++ l := by
  induction l with
  | nil => intro acc _ _; simp
  | cons a rest ih =>
    intro acc hcross hpair
    rcases List.pairwise_cons.mp hpair with ⟨ha, hrest⟩
    have hstep : AlgPy.insertTerm acc a = acc ++ [a] :=
      insertTerm_append (fun w hw => hcross w hw a (List.mem_cons_self a rest))
    have hcross2 : ∀ w ∈ acc ++ [a], ∀ u ∈ rest, AlgPy.monEq w.1 u.1 = false := by
      intro w hw u hu
      rcases List.mem_append.mp hw with h | h
      · exact hcross w h u (List.mem_cons_of_mem a hu)
      · rw [List.mem_singleton.mp h]; exact ha u hu
    calc (a :: rest).foldl AlgPy.insertTerm acc
        = rest.foldl AlgPy.insertTerm (acc ++ [a]) := by rw [List.foldl_cons, hstep]
      _ = (acc ++ [a]) ++ rest := ih hcross2 hrest
      _ = acc ++ a :: rest := by simp

/-- combine is the identity on a polynomial already in normal form:
pairwise distinct monomials and no zero coefficient. -/
theorem combine_id {l : AlgPy.Poly}
    (hz : ∀ t ∈ l, t.2 ≠ 0)
    (hp : l.Pairwise (fun a b => AlgPy.monEq a.1 b.1 = false)) :
    AlgPy.combine l = l := by
  unfold AlgPy.combine
  rw [foldl_insertTerm_of_pairwise (by intro w hw; exact absurd hw (List.not_mem_nil w)) hp]
  rw [List.nil_append]
  rw [List.filter_eq_self]
  intro t ht
  simpa using hz t ht

/-- A mapM over Except succeeds elementwise. -/
theorem mapM_ok_of_forall {α β : Type} {f : α → Except PyErr β} {g : α → β} :
    ∀ {l : List α}, (∀ x ∈ l, f x = .ok (g x)) → l.mapM f = .ok (l.map g) := by
  intro l
  induction l with
  | nil => intro _; rfl
  | cons a rest ih =>
    intro h
    rw [List.mapM_cons, h a (List.mem_cons_self a rest),
      ih (fun x hx => h x (List.mem_cons_of_mem a hx))]
    rfl

/-- A mapM over Except succeeds when each element succeeds at some
value. -/
theorem mapM_isOk_of_forall {α β : Type} {f : α → Except PyErr β} :
    ∀ {l : List α}, (∀ x ∈ l, ∃ y, f x = .ok y) → ∃ ys, l.mapM f = .ok ys := by
  intro l
  induction l with
  | nil => intro _; exact ⟨[], rfl⟩
  | cons a rest ih =>
    intro h
    rcases h a (List.mem_cons_self a rest) with ⟨y, hy⟩
    rcases ih (fun x hx => h x (List.mem_cons_of_mem a hx)) with ⟨ys, hys⟩
    exact ⟨y :: ys, by rw [List.mapM_cons, hy, hys]; rfl⟩

/-- Insertion keeps the members. -/
theorem insSorted_perm (a : String) (l : List String) :
    (AlgPy.insSorted a l).Perm (a :: l) := by
  induction l with
  | nil => exact List.Perm.refl _
  | cons b rest ih =>
    simp only [AlgPy.insSorted]
    by_cases h : AlgPy.strLe a b
    · rw [if_pos h]
    · rw [if_neg h]
      exact (List.Perm.cons b ih).trans (List.Perm.swap a b rest)

/-- Sorting keeps the members. -/
theorem sortStr_perm (l : List String) : (AlgPy.sortStr l).Perm l := by
  induction l with
  | nil => exact List.Perm.refl _
  | cons a rest ih =>
    exact (insSorted_perm a (AlgPy.sortStr rest)).trans (List.Perm.cons a ih)

/-- Membership in a Python sorted list. -/
theorem mem_sortStr {a : String} {l : List String} :
    a ∈ AlgPy.sortStr l ↔ a ∈ l := (sortStr_perm l).mem_iff

/-- Strictly fewer names of at least one more character remain once a
member of the list is excluded by length. -/
theorem filter_length_lt_of_mem {cur : String} {l : List String} (h : cur ∈ l) :
    (l.filter (fun x => decide (cur.length + 1 ≤ x.length))).length <
    (l.filter (fun x => decide (cur.length ≤ x.length))).length := by
  induction l with
  | nil => exact absurd h (List.not_mem_nil cur)
  | cons b rest ih =>
    have hmono : ∀ x : String,
        decide (cur.length + 1 ≤ x.length) = true → decide (cur.length ≤ x.length) = true := by
      intro x hx
      simp only [decide_eq_true_eq] at hx ⊢
      omega
    rcases List.mem_cons.mp h with hb | hb
    · subst hb
      simp only [List.filter_cons]
      have h1 : decide (cur.length ≤ cur.length) = true := by simp
      have h2 : decide (cur.length + 1 ≤ cur.length) = false := by simp
      rw [h1, h2]
      simp only [Bool.false_eq_true, if_false, if_true, List.length_cons]
      have := List.Sublist.length_le (List.monotone_filter_right rest hmono)
      omega
    · simp only [List.filter_cons]
      by_cases hc1 : decide (cur.length + 1 ≤ b.length) = true
      · have hc0 : decide (cur.length ≤ b.length) = true := hmono b hc1
        rw [hc1, hc0]
        simpa using ih hb
      · rw [Bool.eq_false_iff.mpr hc1]
        by_cases hc0 : decide (cur.length ≤ b.length) = true
        · rw [hc0]
          simp only [if_false, if_true, List.length_cons]
          exact Nat.lt_succ_of_lt (ih hb)
        · rw [Bool.eq_false_iff.mpr hc0]
          simpa using ih hb

/-- The fresh-name loop leaves the avoided list when it has enough
fuel: more than the number of avoided names at least as long as the
current candidate. -/
theorem freshFrom_not_mem {avoid : List String} :
    ∀ (fuel : Nat) (cur : String),
    (avoid.filter (fun x => decide (cur.length ≤ x.length))).length < fuel →
    AlgPy.freshFrom avoid fuel cur ∉ avoid := by
  intro fuel
  induction fuel with
  | zero => intro cur h; omega
  | succ n ih =>
    intro cur h
    simp only [AlgPy.freshFrom]
    by_cases hc : cur ∈ avoid
    · rw [if_pos hc]
      apply ih
      have hlen : (cur ++ "0").length = cur.length + 1 := by
        rw [String.length_append]; rfl
      rw [hlen]
      have := filter_length_lt_of_mem hc
      omega
    · rw [if_neg hc]; exact hc

/-- The homogenizing variable homogenize manufactures avoids every
variable and parameter. -/
theorem freshHomvar_not_mem (s : AlgPy.PolySystem) :
    AlgPy.freshHomvar s ∉ s.vars ++ s.params := by
  apply freshFrom_not_mem
  have := List.length_filter_le (fun x => decide (("p" : String).length ≤ x.length))
    (s.vars ++ s.params)
  omega

/-- Keys of the monomials of a polynomial are among its free symbols. -/
theorem mem_freeSyms {p : AlgPy.Poly} {t : AlgPy.Mon × ℚ} {kv : String × Nat}
    (ht : t ∈ p) (hkv : kv ∈ t.1) : kv.1 ∈ AlgPy.freeSyms p := by
  induction p with
  | nil => exact absurd ht (List.not_mem_nil t)
  | cons a rest ih =>
    simp only [AlgPy.freeSyms, List.foldr_cons] at *
    rcases List.mem_cons.mp ht with h | h
    · subst h
      exact List.mem_append.mpr (Or.inl (List.mem_map.mpr ⟨kv, hkv, rfl⟩))
    · exact List.mem_append.mpr (Or.inr (ih h))

/-- Free symbols of a member polynomial are free symbols of the list. -/
theorem mem_sysFreeSyms {ps : List AlgPy.Poly} {p : AlgPy.Poly} {a : String}
    (hp : p ∈ ps) (ha : a ∈ AlgPy.freeSyms p) : a ∈ AlgPy.sysFreeSyms ps := by
  induction ps with
  | nil => exact absurd hp (List.not_mem_nil p)
  | cons b rest ih =>
    simp only [AlgPy.sysFreeSyms, List.foldr_cons] at *
    rcases List.mem_cons.mp hp with h | h
    · subst h; exact List.mem_append.mpr (Or.inl ha)
    · exact List.mem_append.mpr (Or.inr (ih h))

/-- Members of a zipWith are images of members of the zip. -/
theorem mem_zipWith {α β γ : Type} {f : α → β → γ} :
    ∀ {l1 : List α} {l2 : List β} {x : γ}, x ∈ List.zipWith f l1 l2 →
    ∃ pq ∈ l1.zip l2, x = f pq.1 pq.2 := by
  intro l1
  induction l1 with
  | nil => intro l2 x hx; simp at hx
  | cons a rest ih =>
    intro l2 x hx
    cases l2 with
    | nil => simp at hx
    | cons b rest2 =>
      rcases List.mem_cons.mp hx with h | h
      · exact ⟨(a, b), List.mem_cons_self _ _, h⟩
      · rcases ih h with ⟨pq, hpq, he⟩
        exact ⟨pq, List.mem_cons_of_mem _ hpq, he⟩

/-- A fold of max over terms all of one degree yields that degree. -/
theorem foldl_max_const {d : Nat} :
    ∀ {l : AlgPy.Poly} (_ : l ≠ []) (_ : ∀ t ∈ l, AlgPy.monDeg t.1 = d) (a : Nat),
    l.foldl (fun a t => max a (AlgPy.monDeg t.1)) a = max a d := by
  intro l
  induction l with
  | nil => intro h; exact absurd rfl h
  | cons t rest ih =>
    intro _ hall a
    rw [List.foldl_cons, hall t (List.mem_cons_self t rest)]
    cases rest with
    | nil => rfl
    | cons u rest2 =>
      rw [ih (by simp) (fun x hx => hall x (List.mem_cons_of_mem t hx)) (max a d)]
      rw [Nat.max_assoc, Nat.max_self]

/-- The recorded total degree of a polynomial whose terms all have one
degree. -/
theorem maxDeg_const {l : AlgPy.Poly} {d : Nat} (hne : l ≠ [])
    (hall : ∀ t ∈ l, AlgPy.monDeg t.1 = d) : AlgPy.maxDeg l = d := by
  unfold AlgPy.maxDeg
  rw [foldl_max_const hne hall 0]
  omega

/-- A monomial with nonzero exponents and total degree zero is empty. -/
theorem mon_empty_of_deg_zero {m : AlgPy.Mon} (hz : ∀ kv ∈ m, kv.2 ≠ 0)
    (hd : AlgPy.monDeg m = 0) : m = [] := by
  cases m with
  | nil => rfl
  | cons kv rest =>
    exfalso
    unfold AlgPy.monDeg at hd
    simp only [List.map_cons, List.sum_cons] at hd
    exact hz kv (List.mem_cons_self kv rest) (by omega)

/-- Under distinct keys, an entry of a monomial is what lookup finds. -/
theorem lookupExp_of_mem {m : AlgPy.Mon} {kv : String × Nat}
    (hnd : (m.map Prod.fst).Nodup) (hkv : kv ∈ m) : AlgPy.lookupExp m kv.1 = kv.2 := by
  induction m with
  | nil => exact absurd hkv (List.not_mem_nil kv)
  | cons a rest ih =>
    simp only [List.map_cons, List.nodup_cons] at hnd
    rcases List.mem_cons.mp hkv with h | h
    · subst h
      simp [AlgPy.lookupExp, List.lookup]
    · have hne : kv.1 ≠ a.1 := by
        intro he
        exact hnd.1 (he ▸ List.mem_map.mpr ⟨kv, h, rfl⟩)
      have hb : (kv.1 == a.1) = false := beq_eq_false_iff_ne.mpr hne
      simp only [AlgPy.lookupExp, List.lookup, hb]
      exact ih hnd.2 h

/-- A key absent from a monomial looks up to exponent zero. -/
theorem lookupExp_of_not_mem {m : AlgPy.Mon} {k : String}
    (h : k ∉ m.map Prod.fst) : AlgPy.lookupExp m k = 0 := by
  induction m with
  | nil => rfl
  | cons a rest ih =>
    simp only [List.map_cons, List.mem_cons] at h
    push_neg at h
    have hb : (k == a.1) = false := beq_eq_false_iff_ne.mpr h.1
    simp only [AlgPy.lookupExp, List.lookup, hb]
    exact ih h.2

/-- On well-formed monomials the Boolean monomial equality holds
exactly when every symbol carries the same exponent in both. -/
theorem monEq_iff_lookups {m1 m2 : AlgPy.Mon}
    (h1 : AlgPy.MonWf m1) (h2 : AlgPy.MonWf m2) :
    AlgPy.monEq m1 m2 = true ↔ ∀ k, AlgPy.lookupExp m1 k = AlgPy.lookupExp m2 k := by
  constructor
  · intro h k
    simp only [AlgPy.monEq, Bool.and_eq_true, List.all_eq_true] at h
    obtain ⟨ha, hb⟩ := h
    by_cases hk1 : k ∈ m1.map Prod.fst
    · rcases List.mem_map.mp hk1 with ⟨kv, hkv, he⟩
      subst he
      rw [lookupExp_of_mem h1.1 hkv]
      have hl : AlgPy.lookupExp m2 kv.1 = kv.2 := by simpa using ha kv hkv
      exact hl.symm
    · rw [lookupExp_of_not_mem hk1]
      by_cases hk2 : k ∈ m2.map Prod.fst
      · rcases List.mem_map.mp hk2 with ⟨kv, hkv, he⟩
        subst he
        have hl : AlgPy.lookupExp m1 kv.1 = kv.2 := by simpa using hb kv hkv
        rw [lookupExp_of_not_mem hk1] at hl
        exact absurd hl.symm (h2.2 kv hkv)
      · rw [lookupExp_of_not_mem hk2]
  · intro h
    simp only [AlgPy.monEq, Bool.and_eq_true, List.all_eq_true]
    constructor <;> intro kv hkv
    · simpa using ((h kv.1).symm.trans (lookupExp_of_mem h1.1 hkv))
    · simpa using ((h kv.1).trans (lookupExp_of_mem h2.1 hkv))

/-- Degrees of a filtered monomial never exceed the whole degree. -/
theorem monDeg_filter_le (p : String × Nat → Bool) (m : AlgPy.Mon) :
    AlgPy.monDeg (m.filter p) ≤ AlgPy.monDeg m := by
  induction m with
  | nil => exact Nat.le_refl 0
  | cons a rest ih =>
    simp only [List.filter_cons]
    by_cases h : p a = true
    · rw [if_pos h]
      simp only [AlgPy.monDeg, List.map_cons, List.sum_cons] at *
      omega
    · rw [if_neg (by simpa using h)]
      simp only [AlgPy.monDeg, List.map_cons, List.sum_cons] at *
      omega

/-- The variable degree is the degree of the filtered monomial and is
bounded by the total degree. -/
theorem varDeg_le_monDeg (vs : List String) (m : AlgPy.Mon) :
    AlgPy.varDeg vs m ≤ AlgPy.monDeg m := monDeg_filter_le _ m

/-- The start value bounds a fold of max from below. -/
theorem le_foldl_max : ∀ (l : AlgPy.Poly) (a : Nat),
    a ≤ l.foldl (fun a t => max a (AlgPy.monDeg t.1)) a := by
  intro l
  induction l with
  | nil => intro a; exact Nat.le_refl a
  | cons b r ihl =>
    intro a
    rw [List.foldl_cons]
    exact le_trans (Nat.le_max_left _ _) (ihl _)

/-- Terms of a polynomial bound the recorded maximum degree from
below. -/
theorem monDeg_le_maxDeg {p : AlgPy.Poly} {t : AlgPy.Mon × ℚ} (ht : t ∈ p) :
    AlgPy.monDeg t.1 ≤ AlgPy.maxDeg p := by
  unfold AlgPy.maxDeg
  have key : ∀ (l : AlgPy.Poly) (a : Nat), ∀ u ∈ l,
      AlgPy.monDeg u.1 ≤ l.foldl (fun a t => max a (AlgPy.monDeg t.1)) a := by
    intro l
    induction l with
    | nil => intro a u hu; exact absurd hu (List.not_mem_nil u)
    | cons b rest ih =>
      intro a u hu
      rw [List.foldl_cons]
      rcases List.mem_cons.mp hu with h | h
      · subst h
        exact le_trans (Nat.le_max_right _ _) (le_foldl_max rest _)
      · exact ih _ u h
  exact key p 0 t ht

/-- Filtering out parameters from a monomial whose keys are variables
or parameters, the roles being disjoint, keeps exactly the variable
entries. -/
theorem monFilterOut_eq_filter_vars {pars vs : List String} {m : AlgPy.Mon}
    (hkeys : ∀ kv ∈ m, kv.1 ∈ vs ++ pars)
    (hdisj : ∀ v ∈ vs, v ∉ pars) :
    AlgPy.monFilterOut pars m = m.filter (fun kv => decide (kv.1 ∈ vs)) := by
  unfold AlgPy.monFilterOut
  apply List.filter_congr
  intro kv hkv
  simp only [decide_eq_decide]
  constructor
  · intro hnp
    rcases List.mem_append.mp (hkeys kv hkv) with h | h
    · exact h
    · exact absurd h hnp
  · intro hv
    exact hdisj kv.1 hv

/-- zipWith of the subtraction of equal evaluations is a list of
zeros. -/
theorem gSub_self (x : AlgPy.GRat) : AlgPy.gSub x x = AlgPy.gZero := by
  simp [AlgPy.gSub, AlgPy.gZero]

/-- Squared norm of a zero list vanishes. -/
theorem normSqList_zeros {l : List AlgPy.GRat} (h : ∀ x ∈ l, x = AlgPy.gZero) :
    AlgPy.normSqList l = 0 := by
  induction l with
  | nil => rfl
  | cons a rest ih =>
    simp only [AlgPy.normSqList, List.map_cons, List.sum_cons] at *
    rw [h a (List.mem_cons_self a rest), ih (fun x hx => h x (List.mem_cons_of_mem a hx))]
    simp [AlgPy.gNormSq, AlgPy.gZero]

/-- The equality tolerance is positive, also when squared. -/
theorem TOLq_sq_pos : (0 : ℚ) < AlgPy.TOLq ^ 2 := by
  unfold AlgPy.TOLq
  positivity

/-- Terms of a parameter-substituted polynomial carry the filtered
monomial of some original term. -/
theorem substParamsOne_mon {pars : List String} {pp : AlgPy.Poly} {w : AlgPy.Mon × ℚ}
    (hw : w ∈ AlgPy.substParamsOne pars pp) :
    ∃ t ∈ pp, w.1 = AlgPy.monFilterOut pars t.1 := by
  rcases combine_mon hw with ⟨u, hu, he⟩
  rcases List.mem_map.mp hu with ⟨t, ht, hf⟩
  exact ⟨t, ht, by rw [he, ← hf]⟩

/-- The constructor homogeneity test passes for a polynomial whose
parameter-substituted support consists of monomials of one common
degree with nonzero exponents. -/
theorem homogOK_of_support {pars : List String} {pp : AlgPy.Poly} {d : Nat}
    (hsup : ∀ w ∈ AlgPy.substParamsOne pars pp,
      AlgPy.monDeg w.1 = d ∧ ∀ kv ∈ w.1, kv.2 ≠ 0) :
    AlgPy.homogOK pars pp (AlgPy.polyDeg pars pp) = true := by
  unfold AlgPy.homogOK AlgPy.polyDeg
  rw [List.all_eq_true]
  intro t ht
  by_cases hn : AlgPy.isNumberP (AlgPy.substParamsOne pars pp) = true
  · rw [if_pos hn]
    have : t.1.isEmpty = true := by
      unfold AlgPy.isNumberP at hn
      rw [List.all_eq_true] at hn
      exact hn t ht
    simp [this]
  · rw [if_neg hn]
    have hex : ∃ t0 ∈ AlgPy.substParamsOne pars pp, t0.1.isEmpty = false := by
      unfold AlgPy.isNumberP at hn
      rw [List.all_eq_true] at hn
      push_neg at hn
      rcases hn with ⟨t0, ht0, hne⟩
      exact ⟨t0, ht0, by simpa using hne⟩
    rcases hex with ⟨t0, ht0, hne0⟩
    have ht0ne : t0.1 ≠ [] := by
      intro hc; rw [hc] at hne0; simp at hne0
    have hdpos : d ≠ 0 := by
      intro hc
      have := (hsup t0 ht0).1
      rw [hc] at this
      exact ht0ne (mon_empty_of_deg_zero (hsup t0 ht0).2 this)
    have hnonempty : ∀ w ∈ AlgPy.substParamsOne pars pp, w.1 ≠ [] := by
      intro w hw hc
      have := (hsup w hw).1
      rw [hc] at this
      unfold AlgPy.monDeg at this
      simp at this
      exact hdpos this.symm
    have hmax : AlgPy.maxDeg (AlgPy.substParamsOne pars pp) = d :=
      maxDeg_const (by intro hc; rw [hc] at ht0; exact List.not_mem_nil t0 ht0)
        (fun w hw => (hsup w hw).1)
    have hte : t.1.isEmpty = false := by
      cases hte : t.1.isEmpty
      · rfl
      · exact absurd (List.isEmpty_iff.mp hte) (hnonempty t ht)
    rw [hte]
    simp only [Bool.false_eq_true, if_false]
    rw [hmax, (hsup t ht).1]
    simp

/-- The per-polynomial constructor step succeeds for such a
polynomial. -/
theorem degreeAndCheck_ok_of_support {pars : List String} {pp : AlgPy.Poly} {d : Nat}
    (hsup : ∀ w ∈ AlgPy.substParamsOne pars pp,
      AlgPy.monDeg w.1 = d ∧ ∀ kv ∈ w.1, kv.2 ≠ 0) :
    AlgPy.degreeAndCheck pars true pp = .ok (AlgPy.polyDeg pars pp) := by
  unfold AlgPy.degreeAndCheck
  simp only [if_true]
  rw [if_pos (homogOK_of_support hsup)]

/-- A fold of max over integers stays among its arguments and bounds
them. -/
theorem foldl_max_int_spec : ∀ (l : List Int) (a : Int),
    (l.foldl max a = a ∨ l.foldl max a ∈ l) ∧
    a ≤ l.foldl max a ∧ ∀ x ∈ l, x ≤ l.foldl max a := by
  intro l
  induction l with
  | nil => intro a; exact ⟨Or.inl rfl, le_refl a, by simp⟩
  | cons b rest ih =>
    intro a
    rw [List.foldl_cons]
    rcases ih (max a b) with ⟨hmem, hle, hbound⟩
    refine ⟨?_, ?_, ?_⟩
    · rcases hmem with h | h
      · rcases max_choice a b with hc | hc
        · exact Or.inl (h.trans hc)
        · refine Or.inr ?_
          rw [h, hc]
          exact List.mem_cons_self b rest
      · exact Or.inr (List.mem_cons_of_mem b h)
    · exact le_trans (le_max_left a b) hle
    · intro x hx
      rcases List.mem_cons.mp hx with h | h
      · subst h; exact le_trans (le_max_right a x) hle
      · exact hbound x h

/-- C9: Polynomial.total_degree is partial: on a sum-form polynomial
with at least one summand whose degrees are all defined it returns
their maximum, but on the zero polynomial built by the no-argument
constructor — the empty summand list — it takes max of an empty list
and fails (Python ValueError, modelled as none). -/
theorem total_degree_partial :
    (∀ (l : PolyPy.SummandList) (ds : List Int),
      l.degreesList = some ds → l ≠ .nil →
      ∃ d, PolyPy.PolyRep.totalDegree (.sums l) = some d ∧ d ∈ ds ∧ ∀ x ∈ ds, x ≤ d) ∧
    PolyPy.PolyRep.totalDegree PolyPy.polyInitEmpty = none := by
  constructor
  · intro l ds h hne
    have hds : ∃ d0 t, ds = d0 :: t := by
      cases l with
      | nil => exact absurd rfl hne
      | cons s rest =>
        simp only [PolyPy.SummandList.degreesList] at h
        cases hs : s.degreeOf with
        | none => rw [hs] at h; simp at h
        | some d0 =>
          cases hr : rest.degreesList with
          | none => rw [hs, hr] at h; simp at h
          | some t =>
            rw [hs, hr] at h
            simp only [Option.some.injEq] at h
            exact ⟨d0, t, h.symm⟩
    rcases hds with ⟨d0, t, he⟩
    subst he
    have hmax : PolyPy.PolyRep.totalDegree (.sums l) = (d0 :: t).max? := by
      simp [PolyPy.PolyRep.totalDegree, h]
    have hsome : (d0 :: t).max? = some (t.foldl max d0) := rfl
    rcases foldl_max_int_spec t d0 with ⟨hmem, hle, hbound⟩
    refine ⟨t.foldl max d0, by rw [hmax, hsome], ?_, ?_⟩
    · rcases hmem with hh | hh
      · rw [hh]; exact List.mem_cons_self _ _
      · exact List.mem_cons_of_mem _ hh
    · intro x hx
      rcases List.mem_cons.mp hx with hh | hh
      · subst hh; exact hle
      · exact hbound x hh
  · rfl

/-- Witness for C9: a one-summand polynomial of degree 2. -/
theorem total_degree_partial_witness :
    ∃ d, PolyPy.PolyRep.totalDegree
        (.sums (.cons (.term ⟨[("x", 2)], 3⟩) .nil)) = some d ∧
      d ∈ [(2 : Int)] ∧ ∀ x ∈ [(2 : Int)], x ≤ d :=
  total_degree_partial.1 (.cons (.term ⟨[("x", 2)], 3⟩) .nil) [2]
    (by with_unfolding_all rfl) (by intro hc; cases hc)

/-- C3 amended: assign_parameters updates the receiver in place — the
given variable joins the sorted parameter list and leaves the variable
list — while the polynomials, homogenizing variable and recorded
degrees of the receiver are untouched (the other transformations
construct fresh systems from the read attributes). -/
theorem assign_parameters_in_place (s : AlgPy.PolySystem) (v : String)
    (_hv : v ∈ s.vars) :
    (AlgPy.assignParameters s [v]).polynomials = s.polynomials ∧
    (AlgPy.assignParameters s [v]).homvar = s.homvar ∧
    (AlgPy.assignParameters s [v]).degree = s.degree ∧
    v ∈ (AlgPy.assignParameters s [v]).params ∧
    v ∉ (AlgPy.assignParameters s [v]).vars := by
  refine ⟨rfl, rfl, rfl, ?_, ?_⟩
  · simp only [AlgPy.assignParameters]
    rw [mem_sortStr, List.mem_dedup]
    exact List.mem_append.mpr (Or.inr (by simp))
  · simp only [AlgPy.assignParameters]
    rw [mem_sortStr, List.mem_dedup]
    intro hc
    have h2 := (List.mem_filter.mp hc).2
    simp only [decide_eq_true_eq] at h2
    exact h2 (List.mem_append.mpr (Or.inr (by simp)))

/-- Witness for C3 at the system of x plus y and the variable x. -/
theorem assign_parameters_in_place_witness :
    (AlgPy.assignParameters AlgPy.exXY ["x"]).polynomials = AlgPy.exXY.polynomials ∧
    (AlgPy.assignParameters AlgPy.exXY ["x"]).homvar = AlgPy.exXY.homvar ∧
    (AlgPy.assignParameters AlgPy.exXY ["x"]).degree = AlgPy.exXY.degree ∧
    "x" ∈ (AlgPy.assignParameters AlgPy.exXY ["x"]).params ∧
    "x" ∉ (AlgPy.assignParameters AlgPy.exXY ["x"]).vars :=
  assign_parameters_in_place AlgPy.exXY "x" (by with_unfolding_all decide)

/-- Images of zipped pairs are members of the zipWith. -/
theorem zipWith_of_mem_zip {α β γ : Type} {f : α → β → γ} :
    ∀ {l1 : List α} {l2 : List β} {pq : α × β}, pq ∈ l1.zip l2 →
    f pq.1 pq.2 ∈ List.zipWith f l1 l2 := by
  intro l1
  induction l1 with
  | nil => intro l2 pq h; simp at h
  | cons a rest ih =>
    intro l2 pq h
    cases l2 with
    | nil => simp at h
    | cons b rest2 =>
      rcases List.mem_cons.mp h with hh | hh
      · rw [hh]; exact List.mem_cons_self _ _
      · exact List.mem_cons_of_mem _ (ih hh)

/-- A zipWith of two nonempty lists is nonempty. -/
theorem zipWith_ne_nil {α β γ : Type} {f : α → β → γ} {l1 : List α} {l2 : List β}
    (h1 : l1 ≠ []) (h2 : l2 ≠ []) : List.zipWith f l1 l2 ≠ [] := by
  cases l1 with
  | nil => exact absurd rfl h1
  | cons a r1 =>
    cases l2 with
    | nil => exact absurd rfl h2
    | cons b r2 => simp

/-- Without a homogeneity obligation the per-polynomial constructor
step always succeeds with the recorded degree. -/
theorem degreeAndCheck_false (pars : List String) (p : AlgPy.Poly) :
    AlgPy.degreeAndCheck pars false p = .ok (AlgPy.polyDeg pars p) := by
  simp [AlgPy.degreeAndCheck]

/-- The constructor with no homogenizing variable succeeds whenever an
explicit variable list is given or variables can be inferred. -/
theorem mkSystem_none_ok {polys : List AlgPy.Poly} {varsArg pars : List String}
    (hvs : varsArg ≠ [] ∨ polys ≠ []) :
    ∃ vs, AlgPy.mkSystem polys varsArg pars none =
      .ok ⟨polys, vs, pars, none, polys.map (AlgPy.polyDeg pars)⟩ ∧
      (varsArg ≠ [] → vs = varsArg) := by
  have hmap := mapM_ok_of_forall (g := AlgPy.polyDeg pars) (l := polys)
    (fun p _ => degreeAndCheck_false pars p)
  cases hv : varsArg with
  | nil =>
    have hp : polys ≠ [] := by
      rcases hvs with h | h
      · exact absurd hv h
      · exact h
    have hinf : AlgPy.inferVars polys pars =
        .ok (AlgPy.sortStr (((AlgPy.sysFreeSyms polys).dedup).filter
          (fun v => decide (v ∉ pars)))) := by
      unfold AlgPy.inferVars
      rw [if_neg (by simpa using hp)]
    refine ⟨AlgPy.sortStr (((AlgPy.sysFreeSyms polys).dedup).filter
      (fun v => decide (v ∉ pars))), ?_, ?_⟩
    · unfold AlgPy.mkSystem
      simp only [List.isEmpty_nil, if_true, hinf, hmap]
    · intro hc
      exact absurd rfl hc
  | cons a rest =>
    refine ⟨a :: rest, ?_, fun _ => rfl⟩
    unfold AlgPy.mkSystem
    simp only [List.isEmpty_cons, Bool.false_eq_true, if_false, hmap]

/-- The constructor with a homogenizing variable among the given
variables succeeds when every polynomial passes the homogeneity
check. -/
theorem mkSystem_some_ok {polys : List AlgPy.Poly} {varsArg pars : List String}
    {h : String} (hmem : h ∈ varsArg)
    (hchk : ∀ p ∈ polys, ∃ dd, AlgPy.degreeAndCheck pars true p = .ok dd) :
    ∃ degs, AlgPy.mkSystem polys varsArg pars (some h) =
      .ok ⟨polys, varsArg, pars, some h, degs⟩ := by
  rcases mapM_isOk_of_forall hchk with ⟨degs, hdegs⟩
  refine ⟨degs, ?_⟩
  have hne : varsArg.isEmpty = false := by
    cases varsArg with
    | nil => exact absurd hmem (List.not_mem_nil h)
    | cons a rest => rfl
  unfold AlgPy.mkSystem
  simp only [hne, Bool.false_eq_true, if_false]
  rw [if_pos hmem, hdegs]

/-- The per-polynomial constructor step succeeds on the sum of two
term-by-term homogeneous polynomials of one degree whose parameter
filters agree. -/
theorem degreeAndCheck_polyAdd_ok {newpars allp : List String} {p q : AlgPy.Poly} {d : Nat}
    (hwp : ∀ t ∈ p, AlgPy.MonWf t.1) (hwq : ∀ t ∈ q, AlgPy.MonWf t.1)
    (htp : AlgPy.TermwiseHomog allp p d) (htq : AlgPy.TermwiseHomog allp q d)
    (hfil : ∀ t ∈ AlgPy.polyAdd p q,
      AlgPy.monFilterOut newpars t.1 = AlgPy.monFilterOut allp t.1) :
    AlgPy.degreeAndCheck newpars true (AlgPy.polyAdd p q) =
      .ok (AlgPy.polyDeg newpars (AlgPy.polyAdd p q)) := by
  apply degreeAndCheck_ok_of_support
  intro w hw
  rcases substParamsOne_mon hw with ⟨t, ht, he⟩
  rcases combine_mon ht with ⟨t0, ht0, he0⟩
  have hfil2 := hfil t ht
  constructor
  · rw [he, hfil2, he0]
    rcases List.mem_append.mp ht0 with hh | hh
    · exact htp t0 hh
    · exact htq t0 hh
  · intro kv hkv
    have hkv2 : kv ∈ t.1 := by
      rw [he] at hkv
      exact List.mem_of_mem_filter hkv
    rw [he0] at hkv2
    rcases List.mem_append.mp ht0 with hh | hh
    · exact (hwp t0 hh).2 kv hkv2
    · exact (hwq t0 hh).2 kv hkv2

/-- C2 amended: + and - require equal polynomial counts (ValueError
otherwise); with the same homogenizing variable on both sides and equal
degree tuples the sum keeps the homogenizing variable (shown here when
the roles do not collide, the variable still occurs in the sum, and
the summand polynomials are term-by-term homogeneous with parameters
discounted); with neither side homogeneous the sum is a plain system;
but in every other combination of homogenizing metadata — only one
operand homogeneous, different homogenizing variables, or equal ones
with differing degree tuples — the operation raises
NotImplementedError instead of succeeding. -/
theorem sysadd_homogeneity_cases (s o : AlgPy.PolySystem)
    (hs : AlgPy.SysInv s) (ho : AlgPy.SysInv o) (hne : s.polynomials ≠ []) :
    (s.polynomials.length ≠ o.polynomials.length →
      AlgPy.sysAdd s o = .error .valueError) ∧
    (s.polynomials.length = o.polynomials.length →
      (∀ h1 h2, s.homvar = some h1 → o.homvar = some h2 → h1 ≠ h2 →
        AlgPy.sysAdd s o = .error .notImplementedError) ∧
      (∀ h1, s.homvar = some h1 → o.homvar = some h1 → s.degree ≠ o.degree →
        AlgPy.sysAdd s o = .error .notImplementedError) ∧
      (∀ h1, s.homvar = some h1 → o.homvar = none →
        AlgPy.sysAdd s o = .error .notImplementedError) ∧
      (∀ h2, s.homvar = none → o.homvar = some h2 →
        AlgPy.sysAdd s o = .error .notImplementedError) ∧
      (s.homvar = none → o.homvar = none → AlgPy.overlapChk s o = false →
        ∃ r, AlgPy.sysAdd s o = .ok r ∧ r.homvar = none) ∧
      (∀ h1, s.homvar = some h1 → o.homvar = some h1 → s.degree = o.degree →
        AlgPy.overlapChk s o = false →
        h1 ∈ AlgPy.sysFreeSyms (List.zipWith AlgPy.polyAdd s.polynomials o.polynomials) →
        (∀ pq ∈ s.polynomials.zip o.polynomials, ∃ d,
          AlgPy.TermwiseHomog (s.params ++ o.params) pq.1 d ∧
          AlgPy.TermwiseHomog (s.params ++ o.params) pq.2 d) →
        ∃ r, AlgPy.sysAdd s o = .ok r ∧ r.homvar = some h1)) := by
  constructor
  · intro hlen
    unfold AlgPy.sysAdd
    rw [if_pos hlen]
  · intro hlen
    have hlen2 : ¬ s.polynomials.length ≠ o.polynomials.length := by omega
    have hone : o.polynomials ≠ [] := by
      intro hc
      rw [hc] at hlen
      simp only [List.length_nil] at hlen
      exact hne (List.length_eq_zero.mp hlen)
    refine ⟨?_, ?_, ?_, ?_, ?_, ?_⟩
    · intro h1 h2 e1 e2 hne12
      unfold AlgPy.sysAdd
      rw [if_neg hlen2, e1, e2]
      simp only [if_neg hne12]
    · intro h1 e1 e2 hdeg
      unfold AlgPy.sysAdd
      rw [if_neg hlen2, e1, e2]
      simp only [if_pos rfl, if_neg hdeg]
      simp
    · intro h1 e1 e2
      unfold AlgPy.sysAdd
      rw [if_neg hlen2, e1, e2]
    · intro h2 e1 e2
      unfold AlgPy.sysAdd
      rw [if_neg hlen2, e1, e2]
    · intro e1 e2 hov
      unfold AlgPy.sysAdd
      rw [if_neg hlen2, e1, e2]
      simp only [hov, Bool.false_eq_true, if_false]
      unfold AlgPy.addCombine
      rcases @mkSystem_none_ok (List.zipWith AlgPy.polyAdd s.polynomials o.polynomials)
        (AlgPy.sortStr (((s.vars ++ o.vars).dedup).filter
          (fun v => decide (v ∈ AlgPy.sysFreeSyms
            (List.zipWith AlgPy.polyAdd s.polynomials o.polynomials)))))
        (AlgPy.sortStr (((s.params ++ o.params).dedup).filter
          (fun v => decide (v ∈ AlgPy.sysFreeSyms
            (List.zipWith AlgPy.polyAdd s.polynomials o.polynomials)))))
        (Or.inr (zipWith_ne_nil hne hone)) with ⟨vs, hmk, _⟩
      exact ⟨_, hmk, rfl⟩
    · intro h1 e1 e2 hdeg hov hfree htw
      unfold AlgPy.sysAdd
      rw [if_neg hlen2, e1, e2]
      simp only [if_pos rfl, if_pos hdeg, hov, Bool.false_eq_true, if_false]
      unfold AlgPy.addCombine
      have hh1vars : h1 ∈ s.vars := by
        have := hs.2.2.2.2 h1 (by rw [e1]; simp)
        exact this.1
      have hmem : h1 ∈ AlgPy.sortStr (((s.vars ++ o.vars).dedup).filter
          (fun v => decide (v ∈ AlgPy.sysFreeSyms
            (List.zipWith AlgPy.polyAdd s.polynomials o.polynomials)))) := by
        rw [mem_sortStr]
        apply List.mem_filter.mpr
        refine ⟨List.mem_dedup.mpr (List.mem_append.mpr (Or.inl hh1vars)), by simpa using hfree⟩
      have hchk : ∀ x ∈ List.zipWith AlgPy.polyAdd s.polynomials o.polynomials,
          ∃ dd, AlgPy.degreeAndCheck (AlgPy.sortStr (((s.params ++ o.params).dedup).filter
            (fun v => decide (v ∈ AlgPy.sysFreeSyms
              (List.zipWith AlgPy.polyAdd s.polynomials o.polynomials)))))
            true x = .ok dd := by
        intro x hx
        rcases mem_zipWith hx with ⟨pq, hpq, hxe⟩
        subst hxe
        rcases htw pq hpq with ⟨d, htp, htq⟩
        rcases List.of_mem_zip hpq with ⟨hp1, hq1⟩
        have hfil : ∀ t ∈ AlgPy.polyAdd pq.1 pq.2,
            AlgPy.monFilterOut (AlgPy.sortStr (((s.params ++ o.params).dedup).filter
              (fun v => decide (v ∈ AlgPy.sysFreeSyms
                (List.zipWith AlgPy.polyAdd s.polynomials o.polynomials)))))
              t.1 = AlgPy.monFilterOut (s.params ++ o.params) t.1 := by
          intro t ht
          unfold AlgPy.monFilterOut
          apply List.filter_congr
          intro kv hkv
          simp only [decide_eq_decide]
          have hiff : kv.1 ∈ AlgPy.sortStr (((s.params ++ o.params).dedup).filter
              (fun v => decide (v ∈ AlgPy.sysFreeSyms
                (List.zipWith AlgPy.polyAdd s.polynomials o.polynomials)))) ↔
              kv.1 ∈ s.params ++ o.params := by
            constructor
            · intro hm
              rw [mem_sortStr] at hm
              exact List.mem_dedup.mp (List.mem_of_mem_filter hm)
            · intro hm
              rw [mem_sortStr]
              apply List.mem_filter.mpr
              refine ⟨List.mem_dedup.mpr hm, ?_⟩
              simp only [decide_eq_true_eq]
              exact mem_sysFreeSyms (zipWith_of_mem_zip hpq) (mem_freeSyms ht hkv)
          exact not_congr hiff
        exact ⟨_, degreeAndCheck_polyAdd_ok
          (fun t ht => ((hs.1 pq.1 hp1).1 t ht).1)
          (fun t ht => ((ho.1 pq.2 hq1).1 t ht).1)
          htp htq hfil⟩
      rcases mkSystem_some_ok hmem hchk with ⟨degs, hmk⟩
      exact ⟨_, hmk, rfl⟩

/-- A fresh head variable does not change the variable degree. -/
theorem varDeg_cons_of_fresh {p0 : String} {vs : List String} {m : AlgPy.Mon}
    (h : ∀ kv ∈ m, kv.1 ≠ p0) :
    AlgPy.varDeg (p0 :: vs) m = AlgPy.varDeg vs m := by
  unfold AlgPy.varDeg
  congr 1
  apply List.filter_congr
  intro kv hkv
  simp only [decide_eq_decide, List.mem_cons]
  constructor
  · intro hc
    rcases hc with hc | hc
    · exact absurd hc (h kv hkv)
    · exact hc
  · exact Or.inr

/-- For a monomial whose keys are variables or parameters with the
roles disjoint, dropping the parameters leaves the variable degree. -/
theorem monDeg_monFilterOut_eq_varDeg {pars vs : List String} {m : AlgPy.Mon}
    (hkeys : ∀ kv ∈ m, kv.1 ∈ vs ++ pars)
    (hdisj : ∀ v ∈ vs, v ∉ pars) :
    AlgPy.monDeg (AlgPy.monFilterOut pars m) = AlgPy.varDeg vs m := by
  rw [monFilterOut_eq_filter_vars hkeys hdisj]
  rfl

/-- The degree identity of the homogenized term: with the parameters
discounted, every homogenized term has the scaled degree. -/
theorem homTerm_filter_deg {p0 : String} {pars vs : List String} {u : AlgPy.Mon × ℚ}
    {d : Nat}
    (hkeys : ∀ kv ∈ u.1, kv.1 ∈ vs ++ pars)
    (hdisj : ∀ v ∈ vs, v ∉ pars)
    (hp0 : p0 ∉ vs ++ pars)
    (hle : AlgPy.varDeg vs u.1 ≤ d) :
    AlgPy.monDeg (AlgPy.monFilterOut pars (AlgPy.homTerm p0 vs d u).1) = d := by
  have hterm : (AlgPy.homTerm p0 vs d u).1 =
      if d - AlgPy.varDeg vs u.1 = 0 then u.1
      else (p0, d - AlgPy.varDeg vs u.1) :: u.1 := rfl
  rw [hterm]
  by_cases he : d - AlgPy.varDeg vs u.1 = 0
  · rw [if_pos he]
    rw [monDeg_monFilterOut_eq_varDeg hkeys hdisj]
    omega
  · rw [if_neg he]
    have hp0p : p0 ∉ pars := fun hc => hp0 (List.mem_append.mpr (Or.inr hc))
    have hcons : AlgPy.monFilterOut pars ((p0, d - AlgPy.varDeg vs u.1) :: u.1) =
        (p0, d - AlgPy.varDeg vs u.1) :: AlgPy.monFilterOut pars u.1 := by
      unfold AlgPy.monFilterOut
      rw [List.filter_cons_of_pos (by simpa using hp0p)]
    rw [hcons]
    unfold AlgPy.monDeg at *
    simp only [List.map_cons, List.sum_cons]
    have := monDeg_monFilterOut_eq_varDeg hkeys hdisj
    unfold AlgPy.monDeg at this
    omega

/-- The degree identity of the homogenized term in the variables with
the fresh symbol adjoined. -/
theorem homTerm_varDeg {p0 : String} {pars vs : List String} {u : AlgPy.Mon × ℚ}
    {d : Nat}
    (hkeys : ∀ kv ∈ u.1, kv.1 ∈ vs ++ pars)
    (hp0 : p0 ∉ vs ++ pars)
    (hle : AlgPy.varDeg vs u.1 ≤ d) :
    AlgPy.varDeg (p0 :: vs) (AlgPy.homTerm p0 vs d u).1 = d := by
  have hkne : ∀ kv ∈ u.1, kv.1 ≠ p0 := by
    intro kv hkv hc
    exact hp0 (hc ▸ hkeys kv hkv)
  have hterm : (AlgPy.homTerm p0 vs d u).1 =
      if d - AlgPy.varDeg vs u.1 = 0 then u.1
      else (p0, d - AlgPy.varDeg vs u.1) :: u.1 := rfl
  rw [hterm]
  by_cases he : d - AlgPy.varDeg vs u.1 = 0
  · rw [if_pos he]
    rw [varDeg_cons_of_fresh hkne]
    omega
  · rw [if_neg he]
    have hcons : AlgPy.varDeg (p0 :: vs) ((p0, d - AlgPy.varDeg vs u.1) :: u.1) =
        (d - AlgPy.varDeg vs u.1) + AlgPy.varDeg (p0 :: vs) u.1 := by
      unfold AlgPy.varDeg AlgPy.monDeg
      rw [List.filter_cons_of_pos (by simp)]
      simp only [List.map_cons, List.sum_cons]
    rw [hcons, varDeg_cons_of_fresh hkne]
    omega

/-- Nonzero exponents survive homogenization. -/
theorem homTerm_exps_ne_zero {p0 : String} {vs : List String} {u : AlgPy.Mon × ℚ}
    {d : Nat} (hwf : ∀ kv ∈ u.1, kv.2 ≠ 0) :
    ∀ kv ∈ (AlgPy.homTerm p0 vs d u).1, kv.2 ≠ 0 := by
  have hterm : (AlgPy.homTerm p0 vs d u).1 =
      if d - AlgPy.varDeg vs u.1 = 0 then u.1
      else (p0, d - AlgPy.varDeg vs u.1) :: u.1 := rfl
  rw [hterm]
  by_cases he : d - AlgPy.varDeg vs u.1 = 0
  · rw [if_pos he]
    exact hwf
  · rw [if_neg he]
    intro kv hkv
    rcases List.mem_cons.mp hkv with h | h
    · rw [h]
      exact he
    · exact hwf kv h

/-- Well-formedness of a homogenized monomial. -/
theorem homTerm_MonWf {p0 : String} {vs : List String} {u : AlgPy.Mon × ℚ} {d : Nat}
    (hwf : AlgPy.MonWf u.1) (hfresh : ∀ kv ∈ u.1, kv.1 ≠ p0) :
    AlgPy.MonWf (AlgPy.homTerm p0 vs d u).1 := by
  have hterm : (AlgPy.homTerm p0 vs d u).1 =
      if d - AlgPy.varDeg vs u.1 = 0 then u.1
      else (p0, d - AlgPy.varDeg vs u.1) :: u.1 := rfl
  rw [hterm]
  by_cases he : d - AlgPy.varDeg vs u.1 = 0
  · rw [if_pos he]
    exact hwf
  · rw [if_neg he]
    constructor
    · simp only [List.map_cons, List.nodup_cons]
      refine ⟨?_, hwf.1⟩
      intro hc
      rcases List.mem_map.mp hc with ⟨kv, hkv, he2⟩
      exact hfresh kv hkv he2
    · intro kv hkv
      rcases List.mem_cons.mp hkv with h | h
      · rw [h]
        exact he
      · exact hwf.2 kv h

/-- Looking a symbol other than the fresh one up in a homogenized
monomial sees the original monomial. -/
theorem lookupExp_homTerm_ne {p0 : String} {vs : List String} {u : AlgPy.Mon × ℚ}
    {d : Nat} {k : String} (hk : k ≠ p0) :
    AlgPy.lookupExp (AlgPy.homTerm p0 vs d u).1 k = AlgPy.lookupExp u.1 k := by
  have hterm : (AlgPy.homTerm p0 vs d u).1 =
      if d - AlgPy.varDeg vs u.1 = 0 then u.1
      else (p0, d - AlgPy.varDeg vs u.1) :: u.1 := rfl
  rw [hterm]
  by_cases he : d - AlgPy.varDeg vs u.1 = 0
  · rw [if_pos he]
  · rw [if_neg he]
    have hb : (k == p0) = false := beq_eq_false_iff_ne.mpr hk
    simp only [AlgPy.lookupExp, List.lookup, hb]

/-- Monomial equality of homogenized terms forces monomial equality of
the originals. -/
theorem homTerm_monEq_transfer {p0 : String} {vs : List String}
    {u1 u2 : AlgPy.Mon × ℚ} {d1 d2 : Nat}
    (hw1 : AlgPy.MonWf u1.1) (hw2 : AlgPy.MonWf u2.1)
    (hf1 : ∀ kv ∈ u1.1, kv.1 ≠ p0) (hf2 : ∀ kv ∈ u2.1, kv.1 ≠ p0)
    (heq : AlgPy.monEq (AlgPy.homTerm p0 vs d1 u1).1 (AlgPy.homTerm p0 vs d2 u2).1 = true) :
    AlgPy.monEq u1.1 u2.1 = true := by
  have hwh1 := @homTerm_MonWf p0 vs u1 d1 hw1 hf1
  have hwh2 := @homTerm_MonWf p0 vs u2 d2 hw2 hf2
  rw [monEq_iff_lookups hwh1 hwh2] at heq
  rw [monEq_iff_lookups hw1 hw2]
  intro k
  by_cases hk : k = p0
  · subst hk
    rw [lookupExp_of_not_mem, lookupExp_of_not_mem]
    · intro hc
      rcases List.mem_map.mp hc with ⟨kv, hkv, he⟩
      exact hf2 kv hkv he
    · intro hc
      rcases List.mem_map.mp hc with ⟨kv, hkv, he⟩
      exact hf1 kv hkv he
  · have := heq k
    rw [lookupExp_homTerm_ne hk, lookupExp_homTerm_ne hk] at this
    exact this

/-- The homogenized polynomial of a normal-form polynomial is itself in
normal form, so the sympy expand leaves it as mapped. -/
theorem combine_map_homTerm {p0 : String} {vs : List String} {p : AlgPy.Poly} {d : Nat}
    (hwf : ∀ t ∈ p, AlgPy.MonWf t.1 ∧ t.2 ≠ 0)
    (hpair : p.Pairwise (fun a b => AlgPy.monEq a.1 b.1 = false))
    (hfresh : ∀ t ∈ p, ∀ kv ∈ t.1, kv.1 ≠ p0) :
    AlgPy.combine (p.map (AlgPy.homTerm p0 vs d)) = p.map (AlgPy.homTerm p0 vs d) := by
  apply combine_id
  · intro t ht
    rcases List.mem_map.mp ht with ⟨u, hu, he⟩
    have : (AlgPy.homTerm p0 vs d u).2 = u.2 := rfl
    rw [← he, this]
    exact (hwf u hu).2
  · rw [List.pairwise_map]
    apply List.Pairwise.imp_of_mem (λ {a b} ha hb hab => ?_) hpair
    cases hc : AlgPy.monEq (AlgPy.homTerm p0 vs d a).1 (AlgPy.homTerm p0 vs d b).1
    · rfl
    · exfalso
      have := homTerm_monEq_transfer (hwf a ha).1 (hwf b hb).1
        (hfresh a ha) (hfresh b hb) hc
      rw [hab] at this
      cases this

/-- homogenize succeeds on an invariant-satisfying non-homogeneous
system with no constant polynomial, producing the mapped homogenized
polynomials, the fresh variable first, and the fresh homogenizing
variable. -/
theorem homogenize_ok (s : AlgPy.PolySystem) (hinv : AlgPy.SysInv s)
    (hnone : s.homvar = none)
    (hnc : ∀ p ∈ s.polynomials, AlgPy.isNumberP p = false) :
    ∃ degs, AlgPy.homogenize s = .ok
      (AlgPy.PolySystem.mk
        (s.polynomials.map (fun p => AlgPy.combine (p.map
          (AlgPy.homTerm (AlgPy.freshHomvar s) s.vars (AlgPy.maxDeg p)))))
        (AlgPy.freshHomvar s :: s.vars) s.params (some (AlgPy.freshHomvar s)) degs) := by
  have hany : s.polynomials.any AlgPy.isNumberP = false := by
    rw [List.any_eq_false]
    intro p hp
    simp [hnc p hp]
  have hfresh := freshHomvar_not_mem s
  have hchk : ∀ hp ∈ s.polynomials.map (fun p => AlgPy.combine (p.map
      (AlgPy.homTerm (AlgPy.freshHomvar s) s.vars (AlgPy.maxDeg p)))),
      ∃ dd, AlgPy.degreeAndCheck s.params true hp = .ok dd := by
    intro hp hhp
    rcases List.mem_map.mp hhp with ⟨p, hpmem, he⟩
    subst he
    refine ⟨_, degreeAndCheck_ok_of_support (d := AlgPy.maxDeg p) ?_⟩
    intro w hw
    rcases substParamsOne_mon hw with ⟨t, ht, hwe⟩
    rcases combine_mon ht with ⟨t0, ht0, he0⟩
    rcases List.mem_map.mp ht0 with ⟨u, hu, hue⟩
    have hkeys : ∀ kv ∈ u.1, kv.1 ∈ s.vars ++ s.params := hinv.2.1 p hpmem u hu
    have hdisj := hinv.2.2.1
    have hle : AlgPy.varDeg s.vars u.1 ≤ AlgPy.maxDeg p :=
      le_trans (varDeg_le_monDeg _ _) (monDeg_le_maxDeg hu)
    constructor
    · rw [hwe, he0, ← hue]
      exact homTerm_filter_deg hkeys hdisj hfresh hle
    · intro kv hkv
      rw [hwe] at hkv
      have hkv2 : kv ∈ t.1 := List.mem_of_mem_filter hkv
      rw [he0, ← hue] at hkv2
      exact homTerm_exps_ne_zero ((hinv.1 p hpmem).1 u hu).1.2 kv hkv2
  rcases mkSystem_some_ok (List.mem_cons_self _ _) hchk with ⟨degs, hmk⟩
  refine ⟨degs, ?_⟩
  unfold AlgPy.homogenize
  rw [hnone]
  simp only [hany, Bool.false_eq_true, if_false]
  exact hmk

/-- Pairs of a list zipped against its image under a map. -/
theorem mem_zip_map_left {α β : Type} {f : α → β} :
    ∀ {l : List α} {pq : β × α}, pq ∈ (l.map f).zip l →
    ∃ x ∈ l, pq.1 = f x ∧ pq.2 = x := by
  intro l
  induction l with
  | nil => intro pq h; simp at h
  | cons a rest ih =>
    intro pq h
    rcases List.mem_cons.mp h with hh | hh
    · exact ⟨a, List.mem_cons_self a rest, by rw [hh], by rw [hh]⟩
    · rcases ih hh with ⟨x, hx, h1, h2⟩
      exact ⟨x, List.mem_cons_of_mem a hx, h1, h2⟩

/-- C5: on a system without a homogenizing variable (and, as the
backend degree call requires, without constant polynomials),
homogenize returns a new system whose homogenizing variable is the
freshly manufactured symbol — built from p by appending the digit 0
until it collides with no variable or parameter — placed first in the
variable list, and every term of every polynomial of the result has
degree, in the variables with the fresh symbol adjoined, equal to the
corresponding original polynomial total degree; on an
already-homogeneous system homogenize returns self. -/
theorem homogenize_fresh_first_homogeneous (s : AlgPy.PolySystem)
    (hinv : AlgPy.SysInv s) (hnone : s.homvar = none)
    (hnc : ∀ p ∈ s.polynomials, AlgPy.isNumberP p = false) :
    AlgPy.freshHomvar s ∉ s.vars ∧ AlgPy.freshHomvar s ∉ s.params ∧
    (∃ r, AlgPy.homogenize s = .ok r ∧
      r.homvar = some (AlgPy.freshHomvar s) ∧
      r.vars = AlgPy.freshHomvar s :: s.vars ∧
      r.params = s.params ∧
      r.polynomials.length = s.polynomials.length ∧
      ∀ pr ∈ r.polynomials.zip s.polynomials, ∀ t ∈ pr.1,
        AlgPy.varDeg r.vars t.1 = AlgPy.maxDeg pr.2) ∧
    (∀ s2 : AlgPy.PolySystem, (∃ h0, s2.homvar = some h0) →
      AlgPy.homogenize s2 = .ok s2) := by
  have hfresh := freshHomvar_not_mem s
  refine ⟨fun hc => hfresh (List.mem_append.mpr (Or.inl hc)),
    fun hc => hfresh (List.mem_append.mpr (Or.inr hc)), ?_, ?_⟩
  · rcases homogenize_ok s hinv hnone hnc with ⟨degs, hhom⟩
    refine ⟨_, hhom, rfl, rfl, rfl, by simp, ?_⟩
    intro pr hpr t ht
    rcases mem_zip_map_left hpr with ⟨x, hx, h1, h2⟩
    rw [h1] at ht
    rw [h2]
    rcases combine_mon ht with ⟨t0, ht0, he0⟩
    rcases List.mem_map.mp ht0 with ⟨u, hu, hue⟩
    have hkeys : ∀ kv ∈ u.1, kv.1 ∈ s.vars ++ s.params := hinv.2.1 x hx u hu
    have hle : AlgPy.varDeg s.vars u.1 ≤ AlgPy.maxDeg x :=
      le_trans (varDeg_le_monDeg _ _) (monDeg_le_maxDeg hu)
    show AlgPy.varDeg (AlgPy.freshHomvar s :: s.vars) t.1 = AlgPy.maxDeg x
    rw [he0, ← hue]
    exact homTerm_varDeg hkeys hfresh hle
  · intro s2 ⟨h0, he⟩
    unfold AlgPy.homogenize
    rw [he]

/-- Witness for C5 at the circle system. -/
theorem homogenize_fresh_first_homogeneous_witness :
    AlgPy.freshHomvar AlgPy.exCircle ∉ AlgPy.exCircle.vars ∧
    AlgPy.freshHomvar AlgPy.exCircle ∉ AlgPy.exCircle.params ∧
    (∃ r, AlgPy.homogenize AlgPy.exCircle = .ok r ∧
      r.homvar = some (AlgPy.freshHomvar AlgPy.exCircle) ∧
      r.vars = AlgPy.freshHomvar AlgPy.exCircle :: AlgPy.exCircle.vars ∧
      r.params = AlgPy.exCircle.params ∧
      r.polynomials.length = AlgPy.exCircle.polynomials.length ∧
      ∀ pr ∈ r.polynomials.zip AlgPy.exCircle.polynomials, ∀ t ∈ pr.1,
        AlgPy.varDeg r.vars t.1 = AlgPy.maxDeg pr.2) ∧
    (∀ s2 : AlgPy.PolySystem, (∃ h0, s2.homvar = some h0) →
      AlgPy.homogenize s2 = .ok s2) :=
  homogenize_fresh_first_homogeneous AlgPy.exCircle
    (by with_unfolding_all decide) rfl (by with_unfolding_all decide)

/-- Dropping the fresh variable from a homogenized term restores the
original monomial. -/
theorem monFilterOut_homTerm {p0 : String} {vs : List String} {u : AlgPy.Mon × ℚ}
    {d : Nat} (hfresh : ∀ kv ∈ u.1, kv.1 ≠ p0) :
    AlgPy.monFilterOut [p0] (AlgPy.homTerm p0 vs d u).1 = u.1 := by
  have hterm : (AlgPy.homTerm p0 vs d u).1 =
      if d - AlgPy.varDeg vs u.1 = 0 then u.1
      else (p0, d - AlgPy.varDeg vs u.1) :: u.1 := rfl
  have hself : AlgPy.monFilterOut [p0] u.1 = u.1 := by
    unfold AlgPy.monFilterOut
    rw [List.filter_eq_self]
    intro kv hkv
    simpa using hfresh kv hkv
  rw [hterm]
  by_cases he : d - AlgPy.varDeg vs u.1 = 0
  · rw [if_pos he]
    exact hself
  · rw [if_neg he]
    unfold AlgPy.monFilterOut at hself ⊢
    rw [List.filter_cons_of_neg (by simp)]
    exact hself

/-- The roundtrip: dehomogenizing the homogenization reproduces the
receiver exactly. -/
theorem dehomogenize_after_homogenize (s : AlgPy.PolySystem)
    (hinv : AlgPy.SysInv s) (hnone : s.homvar = none) (hvne : s.vars ≠ [])
    (hnc : ∀ p ∈ s.polynomials, AlgPy.isNumberP p = false) :
    ∃ hs2, AlgPy.homogenize s = .ok hs2 ∧ AlgPy.dehomogenize hs2 = .ok s := by
  rcases homogenize_ok s hinv hnone hnc with ⟨degs, hhom⟩
  refine ⟨_, hhom, ?_⟩
  unfold AlgPy.dehomogenize
  simp only []
  rw [if_pos (List.mem_cons_self _ _), List.erase_cons_head]
  have hfresh := freshHomvar_not_mem s
  have hmaps : (s.polynomials.map (fun p => AlgPy.combine (p.map
      (AlgPy.homTerm (AlgPy.freshHomvar s) s.vars (AlgPy.maxDeg p))))).map
      (AlgPy.substOne (AlgPy.freshHomvar s)) = s.polynomials := by
    rw [List.map_map]
    have : ∀ x ∈ s.polynomials,
        (AlgPy.substOne (AlgPy.freshHomvar s) ∘ fun p => AlgPy.combine (p.map
          (AlgPy.homTerm (AlgPy.freshHomvar s) s.vars (AlgPy.maxDeg p)))) x = id x := by
      intro x hx
      have hxw := hinv.1 x hx
      have hxfresh : ∀ t ∈ x, ∀ kv ∈ t.1, kv.1 ≠ AlgPy.freshHomvar s := by
        intro t ht kv hkv hc
        exact hfresh (hc ▸ hinv.2.1 x hx t ht kv hkv)
      simp only [Function.comp]
      rw [combine_map_homTerm hxw.1 hxw.2 hxfresh]
      unfold AlgPy.substOne
      rw [List.map_map]
      have hinner : ∀ u ∈ x, ((fun t => (AlgPy.monFilterOut [AlgPy.freshHomvar s] t.1, t.2)) ∘
          AlgPy.homTerm (AlgPy.freshHomvar s) s.vars (AlgPy.maxDeg x)) u = id u := by
        intro u hu
        simp only [Function.comp, id]
        have h1 : AlgPy.monFilterOut [AlgPy.freshHomvar s]
            (AlgPy.homTerm (AlgPy.freshHomvar s) s.vars (AlgPy.maxDeg x) u).1 = u.1 :=
          monFilterOut_homTerm (hxfresh u hu)
        have h2 : (AlgPy.homTerm (AlgPy.freshHomvar s) s.vars (AlgPy.maxDeg x) u).2 = u.2 := rfl
        rw [h1, h2]
      rw [List.map_congr_left hinner, List.map_id]
      exact combine_id (fun t ht => (hxw.1 t ht).2) hxw.2
    rw [List.map_congr_left this, List.map_id]
  rw [hmaps]
  have hdeg := hinv.2.2.2.1
  rcases @mkSystem_none_ok s.polynomials s.vars s.params (Or.inl hvne) with ⟨vs, hmk, hvs⟩
  rw [hvs hvne] at hmk
  rw [hmk]
  congr 1
  rcases s with ⟨ps, vs0, prs, hv, dg⟩
  simp only at hnone hdeg
  rw [hnone, hdeg]

/-- C4: for a non-homogeneous system (with the variable list nonempty
and, as the backend degree call requires, no constant polynomial),
homogenize followed by dehomogenize reproduces the system exactly, and
the probability-one test equals with strict False declares the
roundtrip equal to the original on any successfully drawn generic
point. -/
theorem homogenize_dehomogenize_equals (s : AlgPy.PolySystem)
    (hinv : AlgPy.SysInv s) (hnone : s.homvar = none) (hvne : s.vars ≠ [])
    (hnc : ∀ p ∈ s.polynomials, AlgPy.isNumberP p = false)
    (draws : List ℚ) (pts : List AlgPy.GRat) (rest : List ℚ)
    (hgen : AlgPy.genPoints (s.vars ++ s.params).length draws = .okp pts rest) :
    ∃ hs2 r, AlgPy.homogenize s = .ok hs2 ∧ AlgPy.dehomogenize hs2 = .ok r ∧
      AlgPy.sysEquals r s false false draws = some true := by
  rcases dehomogenize_after_homogenize s hinv hnone hvne hnc with ⟨hs2, hhom, hdeh⟩
  refine ⟨hs2, s, hhom, hdeh, ?_⟩
  unfold AlgPy.sysEquals
  rw [if_neg (by simp)]
  simp only [Bool.false_and, Bool.false_eq_true, if_false, hgen]
  rw [List.zipWith_same]
  have h0 : AlgPy.normSqList (s.polynomials.map (fun p =>
      AlgPy.gSub (AlgPy.polyEval (AlgPy.assign (s.vars ++ s.params) pts) p)
        (AlgPy.polyEval (AlgPy.assign (s.vars ++ s.params) pts) p))) = 0 := by
    apply normSqList_zeros
    intro x hx
    rcases List.mem_map.mp hx with ⟨p, _, he⟩
    rw [← he]
    exact gSub_self _
  rw [h0, decide_eq_true TOLq_sq_pos]

/-- Witness for C4 at the circle system with a stream of unit draws. -/
theorem homogenize_dehomogenize_equals_witness :
    ∃ hs2 r, AlgPy.homogenize AlgPy.exCircle = .ok hs2 ∧
      AlgPy.dehomogenize hs2 = .ok r ∧
      AlgPy.sysEquals r AlgPy.exCircle false false [1, 1, 1, 1, 1, 1, 1, 1] = some true :=
  homogenize_dehomogenize_equals AlgPy.exCircle (by with_unfolding_all decide) rfl
    (by with_unfolding_all decide) (by with_unfolding_all decide)
    [1, 1, 1, 1, 1, 1, 1, 1] [⟨1, 1⟩, ⟨1, 1⟩] []
    (by with_unfolding_all decide)

/-- C6 amended: a ZeroDivisionError while drawing the generic point is
handled differently by the two operations: rank retries by the bare
recursive call, which redraws from the remaining stream but replaces a
caller-supplied tolerance with the default TOL; equals does not redraw
at all — its except branch returns the plain Python equality
self == other (object identity, modelled by the sameObj argument). -/
theorem rank_retries_equals_falls_back (s o : AlgPy.PolySystem) (tol : ℚ)
    (strict sameObj : Bool) (fuel : Nat) (draws rest : List ℚ)
    (hz : AlgPy.genPoints (s.vars ++ s.params).length draws = .zerodiv rest)
    (hsh : AlgPy.shape s = AlgPy.shape o)
    (hst : (strict && decide ((s.vars ++ s.params) ≠ (o.vars ++ o.params))) = false) :
    AlgPy.sysRank s tol (fuel + 1) draws = AlgPy.sysRank s AlgPy.TOLq fuel rest ∧
    AlgPy.sysEquals s o strict sameObj draws = some sameObj := by
  constructor
  · conv_lhs => unfold AlgPy.sysRank
    rw [hz]
  · unfold AlgPy.sysEquals
    rw [if_neg (by simp [hsh])]
    simp only [hst, Bool.false_eq_true, if_false, hz]

/-- Witness for C6 at the systems of x squared minus 1 and y squared
minus 1, with a zero denominator in the first draw. -/
theorem rank_retries_equals_falls_back_witness :
    AlgPy.sysRank AlgPy.exF 1 1 [1, 0] = AlgPy.sysRank AlgPy.exF AlgPy.TOLq 0 [] ∧
    AlgPy.sysEquals AlgPy.exF AlgPy.exG false false [1, 0] = some false :=
  rank_retries_equals_falls_back AlgPy.exF AlgPy.exG 1 false false 0 [1, 0] []
    (by with_unfolding_all decide) (by with_unfolding_all decide)
    (by with_unfolding_all decide)

/-- Witness for C2 at the sum of the homogeneous one-polynomial system
of x with itself. -/
theorem sysadd_homogeneity_cases_witness :
    ∃ r, AlgPy.sysAdd AlgPy.exHomX AlgPy.exHomX = .ok r ∧ r.homvar = some "x" :=
  ((sysadd_homogeneity_cases AlgPy.exHomX AlgPy.exHomX (by with_unfolding_all decide)
      (by with_unfolding_all decide) (by with_unfolding_all decide)).2 rfl).2.2.2.2.2
    "x" rfl rfl rfl (by with_unfolding_all decide) (by with_unfolding_all decide)
    (by
      intro pq hpq
      have hz : AlgPy.exHomX.polynomials.zip AlgPy.exHomX.polynomials =
          [([([("x", 1)], 1)], [([("x", 1)], 1)])] := by with_unfolding_all rfl
      rw [hz] at hpq
      rw [List.mem_singleton.mp hpq]
      exact ⟨1, by with_unfolding_all decide, by with_unfolding_all decide⟩)

/-- The gcd-based coercion of the source computes exactly the looser
kind of the promotion lattice, which is why the + - * closure of the
spec holds while its division rule does not: __div__ reuses the same
coercion, giving Integer for two Integers. -/
theorem coerce_eq_specLooser :
    ∀ a b : NumericPy.Kind, NumericPy.coerce a b = NumericPy.specLooser a b := by
  intro a b
  cases a <;> cases b <;> with_unfolding_all decide
